import Mathlib

/-!
Verification of the progress-stream parsing and task-tracking engine of the
`rclone_python` wrapper, together with the smaller operation-level helpers.

The development is a shallow embedding of the Python sources:

* `src/rclone_python/utils.py` — `extract_rclone_progress`, the read loop of
  `rclone_progress`, `update_tasks`, the `Config` singleton and
  `RcloneException`;
* `src/rclone_python/rclone.py` — `_rclone_transfer_operation` (and the five
  public transfer operations built on it), `hash`, `check_remote_existing`.

Python values decoded from JSON are modelled by the inductive type `Json`
(numbers, including floats, are modelled by `ℚ`); Python code that can raise
is modelled in the `Except PyErr` monad, and exactly the exceptions the code
can raise are represented.  `json.loads` itself is not re-implemented:
functions that consume one line of output take the *outcome* of `json.loads`
(`Except PyErr Json`, an error being a `ValueError`) as input, which covers
every input string.
-/

/-- A Python value as produced by `json.loads`: `None`, `bool`, a number
(`int`/`float`, modelled by `ℚ`), `str`, `list`, `dict`.  Dictionaries are
kept as key/value lists; `json.loads` produces unique keys (a duplicate key
in the input overwrites, i.e. the last one wins), which lookup mirrors. -/
inductive Json where
  | null : Json
  | bool (b : Bool) : Json
  | num (q : ℚ) : Json
  | str (s : String) : Json
  | arr (elems : List Json) : Json
  | obj (entries : List (String × Json)) : Json

deriving instance DecidableEq for Except

/-- The Python exceptions the embedded code can raise. -/
inductive PyErr where
  | valueError
  | attributeError
  | typeError
  | keyError
  | zeroDivisionError
  | indexError
deriving DecidableEq, Repr

/-- Lookup in a decoded JSON object, mirroring Python `dict` access: with
duplicate keys the last binding wins (as in `json.loads`). -/
def jlookup (entries : List (String × Json)) (k : String) : Option Json :=
  (entries.reverse.find? (fun kv => kv.1 == k)).map Prod.snd

/-- Python `d.get(k, dflt)`: on a `dict` return the binding or the default;
on any other value raise `AttributeError` (there is no `.get` attribute). -/
def pyGet (j : Json) (k : String) (dflt : Json) : Except PyErr Json :=
  match j with
  | .obj entries => .ok ((jlookup entries k).getD dflt)
  | _ => .error .attributeError

/-- Python `d[k]` on a decoded JSON object: `KeyError` when absent,
`TypeError` when the value is not subscriptable by a string. -/
def pyIndex (j : Json) (k : String) : Except PyErr Json :=
  match j with
  | .obj entries =>
      match jlookup entries k with
      | some v => .ok v
      | none => .error .keyError
  | _ => .error .typeError

/-- The numeric view of a Python value: `int`/`float` directly, `bool` as
`0`/`1` (Python `bool` is a subclass of `int`); everything else is not a
number. -/
def toNum : Json → Option ℚ
  | .num q => some q
  | .bool b => some (if b then 1 else 0)
  | _ => none

/-- Python `x > 0`: fine on numbers (and `bool`), a `TypeError` on any other
decoded JSON value (`str`, `list`, `dict`, `None`). -/
def pyGt0 (j : Json) : Except PyErr Bool :=
  match toNum j with
  | some q => .ok (decide (0 < q))
  | none => .error .typeError

/-- Python `x != 0` (never raises): numbers compare numerically, every
non-numeric value is `!= 0`. -/
def pyNeZero (j : Json) : Bool :=
  match toNum j with
  | some q => decide (q ≠ 0)
  | none => true

/-- Python `a / b` (true division): `TypeError` unless both operands are
numbers, `ZeroDivisionError` on a zero divisor. -/
def pyDiv (a b : Json) : Except PyErr ℚ :=
  match toNum a, toNum b with
  | some x, some y => if y = 0 then .error .zeroDivisionError else .ok (x / y)
  | _, _ => .error .typeError

/-- Python `x == "s"` for a string literal on the right (never raises):
only a `str` can compare equal to a `str`. -/
def pyEqStr (j : Json) (s : String) : Bool :=
  match j with
  | .str t => t == s
  | _ => false

/-- Iterating over a decoded JSON value, Python-style: a `list` yields its
elements, a `str` its characters, a `dict` its keys; `None`, `bool` and
numbers are not iterable (`TypeError`). -/
def pyIter (j : Json) : Except PyErr (List Json) :=
  match j with
  | .arr xs => .ok xs
  | .str s => .ok (s.data.map (fun c => Json.str (String.mk [c])))
  | .obj entries => .ok (entries.map (fun kv => Json.str kv.1))
  | _ => .error .typeError

/-- One entry of the `"tasks"` list built by `extract_rclone_progress`
(the per-file update dictionary). -/
structure SubUpdate where
  name : Json
  total : Json
  sent : Json
  progress : ℚ
  transfer_speed : Json

/-- The update dictionary returned by `extract_rclone_progress` on a valid
stats line. -/
structure Update where
  tasks : List SubUpdate
  total : Json
  sent : Json
  progress : ℚ
  transfer_speed : Json
  rclone_output : Json

/-- The `(bool, payload)` pair returned by `extract_rclone_progress`:
`(True, out)` for a progress update, `(False, log_item)` for an
error/critical line, `(False, None)` otherwise. -/
inductive ExtractResult where
  | update (u : Update)
  | errorItem (logItem : Json)
  | none

/-- The per-file loop body of `extract_rclone_progress`
(`for t in stats.get("transferring", []): ...`): build one task dictionary.
`t.get` raises `AttributeError` on a non-dict element, and the conditional
expression `sent / total if total != 0 else 0` can raise `TypeError` on
non-numeric operands. -/
def mkTask (t : Json) : Except PyErr SubUpdate := do
  let total ← pyGet t "size" (.num 0)
  let sent ← pyGet t "bytes" (.num 0)
  let name ← pyGet t "name" (.str "N/A")
  let progress ← if pyNeZero total then pyDiv sent total else pure 0
  let speed ← pyGet t "speed" (.num 0)
  pure ⟨name, total, sent, progress, speed⟩

/-- The `tasks = []; for t in ...: tasks.append({...})` loop of
`extract_rclone_progress`: build the task list, propagating the first
exception raised. -/
def mapTasks : List Json → Except PyErr (List SubUpdate)
  | [] => .ok []
  | t :: rest => do
      let su ← mkTask t
      let sus ← mapTasks rest
      pure (su :: sus)

/-- The `try`/`except ValueError` block of `extract_rclone_progress`: from
the outcome of `json.loads(line)` compute either the `stats` value to test
(`Json.null` standing for Python `None`, via `.inl`) or the early
`return False, log_item` for `error`/`critical` lines (via `.inr`).
`except ValueError` catches exactly the parse failure; the `AttributeError`
raised by `.get` on a non-dict `log_item` propagates. -/
def decodeStats (input : Except PyErr Json) : Except PyErr (Json ⊕ Json) :=
  match input with
  | .error .valueError => .ok (.inl .null)
  | .error e => .error e
  | .ok logItem => do
      let level ← pyGet logItem "level" .null
      if pyEqStr level "info" then
        let stats ← pyGet logItem "stats" .null
        pure (.inl stats)
      else if pyEqStr level "error" || pyEqStr level "critical" then
        pure (.inr logItem)
      else
        pure (.inl .null)

/-- Python `x is None` on a decoded JSON value: only `null` decodes to the
`None` singleton. -/
def isNone : Json → Bool
  | .null => true
  | _ => false

/-- `extract_rclone_progress` (src/rclone_python/utils.py, lines 181–237),
taking the outcome of `json.loads(line)` as input. -/
def extract_rclone_progress (input : Except PyErr Json) : Except PyErr ExtractResult := do
  match ← decodeStats input with
  | .inr logItem => pure (.errorItem logItem)
  | .inl stats =>
    if ¬ isNone stats then
      let tb ← pyGet stats "totalBytes" (.num 0)
      if ← pyGt0 tb then
        let transferring ← pyGet stats "transferring" (.arr [])
        let items ← pyIter transferring
        let tasks ← mapTasks items
        let total ← pyIndex stats "totalBytes"
        let sent ← pyIndex stats "bytes"
        let condTb ← pyIndex stats "totalBytes"
        let progress ← if pyNeZero condTb then do
            let n ← pyIndex stats "bytes"
            pyDiv n condTb
          else pure 0
        let speed ← pyIndex stats "speed"
        pure (.update ⟨tasks, total, sent, progress, speed, stats⟩)
      else
        pure .none
    else
      pure .none

/-- One entry of the `"transferring"` list of a canonical stats record, with
all fields present and numeric (the shape rclone emits). -/
structure WFTransfer where
  name : String
  size : ℚ
  bytes : ℚ
  speed : ℚ

/-- A canonical stats record as emitted by rclone with `--use-json-log`:
`bytes`, `totalBytes`, `speed` numeric and a `transferring` list. -/
structure WFStats where
  bytes : ℚ
  totalBytes : ℚ
  speed : ℚ
  transferring : List WFTransfer

/-- The JSON encoding of one `transferring` entry. -/
def WFTransfer.toJson (t : WFTransfer) : Json :=
  .obj [("name", .str t.name), ("size", .num t.size),
        ("bytes", .num t.bytes), ("speed", .num t.speed)]

/-- The JSON encoding of a canonical stats record. -/
def WFStats.toJson (s : WFStats) : Json :=
  .obj [("bytes", .num s.bytes), ("totalBytes", .num s.totalBytes),
        ("speed", .num s.speed),
        ("transferring", .arr (s.transferring.map WFTransfer.toJson))]

/-- A full `info`-level log line carrying a stats record. -/
def WFStats.logLine (s : WFStats) : Json :=
  .obj [("level", .str "info"), ("stats", s.toJson)]

/-- The task dictionary `extract_rclone_progress` builds for one
`transferring` entry: progress is `bytes / size`, or `0` for `size = 0`. -/
def WFTransfer.expected (t : WFTransfer) : SubUpdate :=
  ⟨.str t.name, .num t.size, .num t.bytes,
   if t.size = 0 then 0 else t.bytes / t.size, .num t.speed⟩

/-- A concrete stats record (values from the repository's own test fixture,
plus a zero-size entry) used to instantiate the universal theorems. -/
def c1Fixture : WFStats :=
  ⟨1, 10000000, 3, [⟨"hello world/file 1.1.file", 6000000, 1100000, 2100⟩, ⟨"empty.file", 0, 5, 1⟩]⟩

/-- One task of a `rich.Progress` bar, restricted to the fields the code
reads or writes: id, description, completed, total, visible. -/
structure RTask where
  id : ℕ
  description : String
  completed : Json
  total : Json
  visible : Bool

/-- The `rich.Progress` bar state: the task list in creation order plus the
next task id to hand out. -/
structure Pbar where
  tasks : List RTask
  nextId : ℕ

/-- `rich.Progress.add_task`: append a fresh task (completed `0`) and return
its id. -/
def Pbar.addTask (p : Pbar) (descr : String) (total : Json) (visible : Bool) : Pbar × ℕ :=
  ({ tasks := p.tasks ++ [⟨p.nextId, descr, .num 0, total, visible⟩],
     nextId := p.nextId + 1 }, p.nextId)

/-- The per-task effect of `rich.Progress.update`: overwrite exactly the
fields passed on the task with the given id, leave every other task
alone. -/
def updApply (i : ℕ) (descr : Option String) (completed total : Option Json)
    (visible : Option Bool) (t : RTask) : RTask :=
  if t.id = i then
    { t with description := descr.getD t.description,
             completed := completed.getD t.completed,
             total := total.getD t.total,
             visible := visible.getD t.visible }
  else t

/-- `rich.Progress.update`: overwrite exactly the fields passed (the others
keep their values) on the task with the given id.  All ids the code passes
exist in the bar, so the absent-id case (where rich would raise) is a no-op
here; the well-formedness hypotheses of the theorems keep it unreachable. -/
def Pbar.updateTask (p : Pbar) (i : ℕ) (descr : Option String)
    (completed total : Option Json) (visible : Option Bool) : Pbar :=
  { p with tasks := p.tasks.map (updApply i descr completed total visible) }

/-- The `visible` flag of the task with a given id. -/
def Pbar.visibleOf (p : Pbar) (i : ℕ) : Option Bool :=
  (p.tasks.find? (fun t => t.id == i)).map RTask.visible

/-- The `completed` field of the task with a given id. -/
def Pbar.completedOf (p : Pbar) (i : ℕ) : Option Json :=
  (p.tasks.find? (fun t => t.id == i)).map RTask.completed

/-- The `total` field of the task with a given id. -/
def Pbar.totalOf (p : Pbar) (i : ℕ) : Option Json :=
  (p.tasks.find? (fun t => t.id == i)).map RTask.total

/-- Replace every (leftmost, non-overlapping) occurrence of a pattern,
as Python `str.replace`; the fuel is the length of the scanned text.
(The empty-pattern case, unused by the code, returns the input.) -/
def replaceFuel (pat rep : List Char) : ℕ → List Char → List Char
  | 0, l => l
  | _, [] => []
  | fuel + 1, c :: rest =>
      if pat.isPrefixOf (c :: rest) then
        rep ++ replaceFuel pat rep fuel (List.drop (pat.length - 1) rest)
      else
        c :: replaceFuel pat rep fuel rest

/-- Python `s.replace(pat, rep)`. -/
def pyReplace (s pat rep : String) : String :=
  if pat.data.isEmpty then s
  else ⟨replaceFuel pat.data rep.data s.data.length s.data⟩

/-- The tail-marker pass at the end of `update_tasks`: walk the tasks in
reverse, and on the first visible one replace the branch symbol in its
description and stop. -/
def tailMarker (p : Pbar) : Pbar :=
  match p.tasks.reverse.find? RTask.visible with
  | some t => p.updateTask t.id (some (pyReplace t.description "├" "└")) none none none
  | none => p

/-- Whether a decoded JSON value is hashable in Python (usable as a `dict`
key / `set` element): lists and dicts are not. -/
def pyHashable : Json → Bool
  | .arr _ => false
  | .obj _ => false
  | _ => true

/-- Equality of hashable decoded JSON values as Python `dict`/`set` keys:
numbers and `bool` compare numerically (`True == 1`), strings as strings. -/
def pyKeyEq (a b : Json) : Bool :=
  match toNum a, toNum b with
  | some x, some y => x == y
  | some _, none => false
  | none, some _ => false
  | none, none =>
      match a, b with
      | .str s, .str t => s == t
      | .null, .null => true
      | _, _ => false

/-- Python `set.add`: raise `TypeError` on an unhashable element, otherwise
add it if not already present (insertion order kept for the model). -/
def pySetAdd (s : List Json) (k : Json) : Except PyErr (List Json) :=
  if pyHashable k then
    .ok (if s.any (fun n => pyKeyEq n k) then s else s ++ [k])
  else .error .typeError

/-- Python `k in set`: raise `TypeError` on an unhashable element. -/
def pySetMem (s : List Json) (k : Json) : Except PyErr Bool :=
  if pyHashable k then .ok (s.any (fun n => pyKeyEq n k)) else .error .typeError

/-- Python `d.get`-style lookup in a `dict` with decoded-JSON keys
(`TypeError` on an unhashable key). -/
def pyDictLookup (d : List (Json × ℕ)) (k : Json) : Except PyErr (Option ℕ) :=
  if pyHashable k then .ok ((d.find? (fun kv => pyKeyEq kv.1 k)).map Prod.snd)
  else .error .typeError

/-- Python `d[k]` on a `dict` with decoded-JSON keys: `KeyError` when
absent. -/
def pyDictIndex (d : List (Json × ℕ)) (k : Json) : Except PyErr ℕ := do
  match ← pyDictLookup d k with
  | some v => .ok v
  | none => .error .keyError

/-- Python `keys - task_names` (set difference), keeping key order; the
result is sorted afterwards anyway (a Python `set` iterates in unspecified
order). -/
def pySetDiff (keys tn : List Json) : Except PyErr (List Json) :=
  match keys with
  | [] => .ok []
  | k :: ks => do
      let m ← pySetMem tn k
      let rest ← pySetDiff ks tn
      .ok (if m then rest else k :: rest)

/-- Whether a decoded JSON value is a `str`. -/
def isStrB : Json → Bool
  | .str _ => true
  | _ => false

/-- The underlying string of a `str` value (and `""` on anything else; used
only where `isStrB` holds). -/
def nameStr : Json → String
  | .str s => s
  | _ => ""

/-- Python `sorted` on the missing-key set: all-string keys sort
lexicographically; a single key needs no comparison; mixed-type keys raise
`TypeError` (Python compares elements pairwise; the numeric-only case never
arises here and is conservatively folded into the error case). -/
def pySorted (keys : List Json) : Except PyErr (List Json) :=
  if keys.all isStrB then
    .ok ((List.insertionSort (fun a b => a ≤ b) (keys.map nameStr)).map Json.str)
  else if keys.length ≤ 1 then .ok keys
  else .error .typeError

/-- Python `str(x)` as used in the f-string description `f" ├─{task_name}"`.
Container rendering is display-only and abbreviated; no theorem depends on
it. -/
def jsonFStr : Json → String
  | .null => "None"
  | .bool b => if b then "True" else "False"
  | .num q => toString q
  | .str s => s
  | .arr _ => "[…]"
  | .obj _ => "dict"

/-- The `for task in update_dict["tasks"]` loop of `update_tasks`
(src/rclone_python/utils.py, lines 309–333): register the name, create the
subtask on first sighting (invisible), update its description, progress and
visibility (`len(subprocesses) > 1`, evaluated after a possible
insertion). -/
def updateTasksLoop (pbar : Pbar) (subprocesses : List (Json × ℕ)) (task_names : List Json) :
    List SubUpdate → Except PyErr (Pbar × List (Json × ℕ) × List Json)
  | [] => .ok (pbar, subprocesses, task_names)
  | task :: rest => do
      let task_name := task.name
      let task_size := task.total
      let task_sent := task.sent
      let task_names ← pySetAdd task_names task_name
      let existing ← pyDictLookup subprocesses task_name
      let (pbar, subprocesses, task_id) :=
        match existing with
        | none =>
            let (pbar2, tid2) := pbar.addTask " " (Json.num 100) false
            (pbar2, subprocesses ++ [(task_name, tid2)], tid2)
        | some tid2 => (pbar, subprocesses, tid2)
      let pbar := pbar.updateTask task_id (some (" ├─" ++ jsonFStr task_name))
          (some task_sent) (some task_size) (some (decide (subprocesses.length > 1)))
      updateTasksLoop pbar subprocesses task_names rest

/-- The `for missing_task_id in missing` loop of `update_tasks`: hide every
subtask whose name vanished from the snapshot. -/
def hideMissingLoop (subprocesses : List (Json × ℕ)) (pbar : Pbar) :
    List Json → Except PyErr Pbar
  | [] => .ok pbar
  | k :: rest => do
      let tid ← pyDictIndex subprocesses k
      hideMissingLoop subprocesses (pbar.updateTask tid none none none (some false)) rest

/-- `update_tasks` (src/rclone_python/utils.py, lines 288–344): update the
aggregate task, fold the snapshot's per-file entries into `subprocesses`,
hide vanished subtasks (sorted missing-key set) and re-mark the tail. -/
def update_tasks (pbar : Pbar) (total_progress : ℕ) (update_dict : Update)
    (subprocesses : List (Json × ℕ)) : Except PyErr (Pbar × List (Json × ℕ)) := do
  let pbar := pbar.updateTask total_progress none (some update_dict.sent)
      (some update_dict.total) none
  let (pbar, subprocesses, task_names) ← updateTasksLoop pbar subprocesses [] update_dict.tasks
  let missingKeys ← pySetDiff (subprocesses.map Prod.fst) task_names
  let missing ← pySorted missingKeys
  let pbar ← hideMissingLoop subprocesses pbar missing
  .ok (tailMarker pbar, subprocesses)

/-- Pure counterpart of one `update_tasks` loop iteration, on string-keyed
state (the shape every reachable state has: task names decoded from JSON
`"name"` fields are strings). -/
def applyTaskP (pbar : Pbar) (subs : List (String × ℕ)) (t : SubUpdate) :
    Pbar × List (String × ℕ) :=
  let nm := nameStr t.name
  match subs.find? (fun kv => kv.1 == nm) with
  | none =>
      let (pbar2, tid2) := pbar.addTask " " (Json.num 100) false
      let subs2 := subs ++ [(nm, tid2)]
      (pbar2.updateTask tid2 (some (" ├─" ++ nm)) (some t.sent) (some t.total)
        (some (decide (subs2.length > 1))), subs2)
  | some kv =>
      (pbar.updateTask kv.2 (some (" ├─" ++ nm)) (some t.sent) (some t.total)
        (some (decide (subs.length > 1))), subs)

/-- Pure counterpart of the `update_tasks` per-file loop. -/
def loopP (pbar : Pbar) (subs : List (String × ℕ)) : List SubUpdate → Pbar × List (String × ℕ)
  | [] => (pbar, subs)
  | t :: rest =>
      let st := applyTaskP pbar subs t
      loopP st.1 st.2 rest

/-- Pure counterpart of the sorted missing-key set. -/
def missingP (subs : List (String × ℕ)) (names : List String) : List String :=
  List.insertionSort (fun a b => a ≤ b)
    ((subs.map Prod.fst).filter (fun k => !(names.contains k)))

/-- Pure counterpart of the hide-missing loop. -/
def hideMissingP (subs : List (String × ℕ)) (pbar : Pbar) : List String → Pbar
  | [] => pbar
  | k :: rest =>
      match subs.find? (fun kv => kv.1 == k) with
      | some kv => hideMissingP subs (pbar.updateTask kv.2 none none none (some false)) rest
      | none => hideMissingP subs pbar rest

/-- Pure counterpart of `update_tasks` on string-keyed state. -/
def update_tasksP (pbar : Pbar) (total_progress : ℕ) (u : Update)
    (subs : List (String × ℕ)) : Pbar × List (String × ℕ) :=
  let pbar := pbar.updateTask total_progress none (some u.sent) (some u.total) none
  let st := loopP pbar subs u.tasks
  let pbar := hideMissingP st.2 st.1 (missingP st.2 (u.tasks.map (fun t => nameStr t.name)))
  (tailMarker pbar, st.2)

/-- Lift string-keyed subprocess state to the decoded-JSON-keyed state the
embedded code operates on. -/
def liftSubs (ss : List (String × ℕ)) : List (Json × ℕ) :=
  ss.map (fun kv => (Json.str kv.1, kv.2))

/-- Lift a list of strings to decoded-JSON values. -/
def liftStrs (l : List String) : List Json := l.map Json.str

/-- Pure counterpart of `pySetAdd` on strings. -/
def setAddStr (cs : List String) (nm : String) : List String :=
  if cs.contains nm then cs else cs ++ [nm]

/-- Pure counterpart of the `task_names` accumulation over the per-file
loop. -/
def loopNames (cs : List String) (ts : List SubUpdate) : List String :=
  ts.foldl (fun acc t => setAddStr acc (nameStr t.name)) cs

/-- The task id stored for a subtask name. -/
def lookupSub (s : List (String × ℕ)) (n : String) : Option ℕ :=
  (s.find? (fun kv => kv.1 == n)).map Prod.snd

/-- Well-formedness of the per-operation progress state, maintained by every
reachable execution: distinct subtask names, distinct task ids, ids below
the bar's next id, every stored id backed by a bar task, and every bar task
id below the next id. -/
def WFState (p : Pbar) (subs : List (String × ℕ)) : Prop :=
  (subs.map Prod.fst).Nodup ∧ (subs.map Prod.snd).Nodup ∧
  (∀ i ∈ subs.map Prod.snd, i < p.nextId) ∧
  (∀ i ∈ subs.map Prod.snd, ∃ tk ∈ p.tasks, tk.id = i) ∧
  (∀ tk ∈ p.tasks, tk.id < p.nextId)

/-- `WFState` plus the aggregate task id: not a subtask id, backed by a bar
task, below the next id. -/
def WFFull (p : Pbar) (subs : List (String × ℕ)) (tid : ℕ) : Prop :=
  WFState p subs ∧ tid ∉ subs.map Prod.snd ∧
  (∃ tk ∈ p.tasks, tk.id = tid) ∧ tid < p.nextId

/-- Python truthiness of a decoded JSON value (`if obj:`). -/
def pyTruthy : Json → Bool
  | .null => false
  | .bool b => b
  | .num q => decide (q ≠ 0)
  | .str s => !(s == "")
  | .arr xs => !xs.isEmpty
  | .obj kvs => !kvs.isEmpty

/-- Python `a + b` for a `str` left operand and string literal right
operand: `TypeError` unless `a` is a `str`. -/
def pyAddStr (a : Json) (b : String) : Except PyErr String :=
  match a with
  | .str s => .ok (s ++ b)
  | _ => .error .typeError

/-- Python `a + b` for a `str` left operand and decoded-JSON right operand:
`TypeError` unless `b` is a `str`. -/
def pyAddStrJ (a : String) (b : Json) : Except PyErr String :=
  match b with
  | .str s => .ok (a ++ s)
  | _ => .error .typeError

/-- The mutable state of the `rclone_progress` read loop: the progress bar,
the `subprocesses` dict, the accumulated `errors` list, and (for the model)
the sequence of updates passed to the caller-supplied listener. -/
structure DriverState where
  pbar : Pbar
  subprocesses : List (Json × ℕ)
  errors : List String
  listenerCalls : List Update

/-- One iteration of the `rclone_progress` read loop
(src/rclone_python/utils.py, lines 148–168), taking the outcome of
`json.loads` on the line read from stderr.  A valid update mutates the bar
(when `show_progress`) and is passed to the listener (recorded in
`listenerCalls`); an error line appends `(obj + ": " if obj else "") + msg`
to `errors`; anything else leaves the state untouched. -/
def processLine (show_progress : Bool) (total_progress_id : ℕ) (st : DriverState)
    (input : Except PyErr Json) : Except PyErr DriverState := do
  match ← extract_rclone_progress input with
  | .update update_dict => do
      let pu ←
        if show_progress then
          update_tasks st.pbar total_progress_id update_dict st.subprocesses
        else pure (st.pbar, st.subprocesses)
      pure ⟨pu.1, pu.2, st.errors, st.listenerCalls ++ [update_dict]⟩
  | .errorItem item => do
      let obj ← pyGet item "object" (.str "")
      let msg ← pyGet item "msg" (.str "<Error message missing>")
      let pfx ← if pyTruthy obj then pyAddStr obj ": " else pure ""
      let entry ← pyAddStrJ pfx msg
      pure ⟨st.pbar, st.subprocesses, st.errors ++ [entry], st.listenerCalls⟩
  | .none => pure st

/-- The `Config` singleton (src/rclone_python/utils.py, lines 31–47): the
class attributes `_initialized` and `config_path`.  Fresh process state:
not initialized, no path. -/
structure Config where
  initialized : Bool
  config_path : Option String

/-- The process state before the first `Config(...)` construction. -/
def Config.fresh : Config := ⟨false, none⟩

/-- One `Config(config_path)` construction: `__init__` assigns the path and
sets `_initialized` only when not yet initialized; afterwards every
construction (with any argument) leaves the singleton untouched. -/
def Config.callInit (c : Config) (config_path : Option String) : Config :=
  if c.initialized then c else ⟨true, config_path⟩

/-- `set_config_file` (src/rclone_python/rclone.py, lines 28–30): construct
the singleton with the given file. -/
def set_config_file (c : Config) (config_file : String) : Config :=
  c.callInit (some config_file)

/-- The implicit construction `Config()` performed by `run_rclone_cmd` and
`rclone_progress` on every executed command. -/
def Config.implicitInit (c : Config) : Config := c.callInit none

/-- `RcloneException` (src/rclone_python/utils.py, lines 19–23): description
and error message. -/
structure RcloneException where
  description : String
  error_msg : String

/-- The exception message built by `RcloneException.__init__` via
`super().__init__(f"... . Error message: \n...")`. -/
def RcloneException.message (e : RcloneException) : String :=
  e.description ++ ". Error message: \n" ++ e.error_msg

/-- The five public transfer operations, all delegating to
`_rclone_transfer_operation`. -/
inductive TransferOp where
  | copy
  | copyto
  | move
  | moveto
  | sync
deriving DecidableEq, Repr

/-- The rclone command each operation passes to
`_rclone_transfer_operation`. -/
def TransferOp.command : TransferOp → String
  | .copy => "rclone copy"
  | .copyto => "rclone copyto"
  | .move => "rclone move"
  | .moveto => "rclone moveto"
  | .sync => "rclone sync"

/-- The `command_descr` each operation passes. -/
def TransferOp.command_descr : TransferOp → String
  | .copy => "Copying"
  | .copyto => "Copying"
  | .move => "Moving"
  | .moveto => "Moving"
  | .sync => "Syncing"

/-- The tail of `_rclone_transfer_operation` (src/rclone_python/rclone.py,
lines 755–769): after the process finished with `waitCode` and the read
loop accumulated `errors`, either succeed or raise an `RcloneException`
whose message joins the captured error lines. -/
def rclone_transfer_operation (command_descr in_path out_path : String) (waitCode : Int)
    (errors : List String) : Except RcloneException Unit :=
  if waitCode = 0 then .ok ()
  else .error ⟨command_descr ++ " from " ++ in_path ++ " to " ++ out_path ++ " failed",
    String.intercalate "\n" errors⟩

/-- One public transfer operation's outcome (`copy`/`copyto`/`move`/
`moveto`/`sync` only add argument building before delegating). -/
def TransferOp.run (op : TransferOp) (in_path out_path : String) (waitCode : Int)
    (errors : List String) : Except RcloneException Unit :=
  rclone_transfer_operation op.command_descr in_path out_path waitCode errors

/-- Split a character list at every occurrence of a separator (Python
`str.split(sep)` on a one-character separator: the empty input gives one
empty piece). -/
def splitCharAux (sep : Char) : List Char → List Char → List (List Char)
  | [], acc => [acc.reverse]
  | c :: rest, acc =>
      if c = sep then acc.reverse :: splitCharAux sep rest []
      else splitCharAux sep rest (c :: acc)

/-- Python `s.split(sep)` for a one-character separator. -/
def splitOnChar (s : String) (sep : Char) : List String :=
  (splitCharAux sep s.data []).map String.mk

/-- Python `str.splitlines()` restricted to `\n` separators (the only ones
in the embedded byte streams): no trailing empty piece. -/
def pySplitlines (s : String) : List String :=
  if s = "" then []
  else
    let ps := splitOnChar s '\n'
    if ps.getLast? = some "" then ps.dropLast else ps

/-- Break a character list at the first occurrence of a separator. -/
def breakAtChar (sep : Char) : List Char → Option (List Char × List Char)
  | [] => none
  | c :: rest =>
      if c = sep then some ([], rest)
      else (breakAtChar sep rest).map (fun p => (c :: p.1, p.2))

/-- Python `l.split(" ", maxsplit=1)` followed by unpacking into exactly two
variables: `ValueError` when there is no separator. -/
def pySplit1 (l : String) : Except PyErr (String × String) :=
  match breakAtChar ' ' l.data with
  | none => .error .valueError
  | some p => .ok (String.mk p.1, String.mk p.2)

/-- Python whitespace as stripped by `str.strip()`. -/
def isPySpace (c : Char) : Bool :=
  c = ' ' || c = '\t' || c = '\n' || c = '\r' || c = '\x0b' || c = '\x0c'

/-- Python `str.strip()`: remove leading and trailing whitespace. -/
def pyStrip (s : String) : String :=
  String.mk (((s.data.dropWhile isPySpace).reverse.dropWhile isPySpace).reverse)

/-- A value of the `hashsums` dict: a hash string in normal mode, a
validity bool in checkfile mode. -/
inductive HVal where
  | hstr (s : String)
  | hbool (b : Bool)
deriving DecidableEq, Repr, Inhabited

/-- Python `dict` insertion for the `hashsums` dict: overwrite in place or
append. -/
def dictInsert (d : List (String × HVal)) (k : String) (v : HVal) : List (String × HVal) :=
  if d.any (fun kv => kv.1 == k) then
    d.map (fun kv => if kv.1 == k then (k, v) else kv)
  else d ++ [(k, v)]

/-- The `for l in lines` loop of `hash`: build the `hashsums` dict, parsing
`value, key = [item.strip() for item in l.split(" ", maxsplit=1)]` on every
non-empty line (checkfile mode stores `value == "="`). -/
def buildHashsums (cfMode : Bool) : List String → List (String × HVal) →
    Except PyErr (List (String × HVal))
  | [], d => .ok d
  | l :: rest, d =>
      if l.length > 0 then do
        let vk ← pySplit1 l
        let value := pyStrip vk.1
        let key := pyStrip vk.2
        buildHashsums cfMode rest
          (dictInsert d key (if cfMode then .hbool (value == "=") else .hstr value))
      else buildHashsums cfMode rest d

/-- The value `hash` returns when an output file is not requested: a single
scalar for one entry, the full mapping otherwise. -/
inductive HashOut where
  | scalar (v : HVal)
  | mapping (m : List (String × HVal))
deriving DecidableEq, Repr

/-- `hash` (src/rclone_python/rclone.py, lines 547–591) after the rclone
process returned: decide whether to raise, then build the result.  `none`
models Python's implicit `None` return when `output_file` is set. -/
def hashExceptionFlag (returncode : Int) (checkfile : Option String)
    (lines : List String) : Bool :=
  if returncode ≠ 0 then
    match checkfile with
    | none => true
    | some _ => lines.any (fun l => !(l.startsWith "= " || l.startsWith "* "))
  else false

def rclone_hash (path hashName : String) (returncode : Int) (stdout stderr : String)
    (checkfile : Option String) (output_file : Option String) :
    Except (RcloneException ⊕ PyErr) (Option HashOut) := do
  let lines := pySplitlines stdout
  let exception := hashExceptionFlag returncode checkfile lines
  if exception then
    .error (.inl ⟨"hashsum command failed on path \"" ++ path ++ "\" with hash=\"" ++
      hashName ++ "\"", stderr⟩)
  else if output_file.isNone then
    match buildHashsums checkfile.isSome lines [] with
    | .error e => .error (.inr e)
    | .ok hashsums =>
        if hashsums.length = 1 then
          .ok (some (.scalar (hashsums.headI.2)))
        else .ok (some (.mapping hashsums))
  else .ok none

/-- Python `str.endswith`: suffix test. -/
def pyEndsWith (s sfx : String) : Bool :=
  sfx.data.isSuffixOf s.data

/-- `check_remote_existing` (src/rclone_python/rclone.py, lines 63–77), with
the `get_remotes()` result passed explicitly: append the trailing colon when
missing, then test membership. -/
def check_remote_existing (remotes : List String) (remote_name : String) : Bool :=
  let remote_name := if !(pyEndsWith remote_name ":") then remote_name ++ ":" else remote_name
  remotes.contains remote_name

/-- Modelled from the spec: the unit-conversion table of the legacy stats
normalizer (`convert_to_bytes`) is not part of the sources under `src/`
(the legacy decoder in `src/rclone.py` only parses percentages); the fixed
table B=0, KiB=1, …, YiB=8 is taken from the spec's words. -/
def unitExponent (unit : String) : Option ℕ :=
  if unit = "B" then some 0
  else if unit = "KiB" then some 1
  else if unit = "MiB" then some 2
  else if unit = "GiB" then some 3
  else if unit = "TiB" then some 4
  else if unit = "PiB" then some 5
  else if unit = "EiB" then some 6
  else if unit = "ZiB" then some 7
  else if unit = "YiB" then some 8
  else none

/-- Modelled from the spec: `convert_to_bytes(value, unit)` returns
`value * 1024^exponent` per the fixed unit table; an unrecognized unit is
an error, not a silent zero. -/
def convert_to_bytes (value : ℚ) (unit : String) : Except String ℚ :=
  match unitExponent unit with
  | some e => .ok (value * 1024 ^ e)
  | none => .error ("unrecognized unit: " ++ unit)

/-- Specification-side view of the hashsum output: the `(filename, value)`
pair of every non-empty line, in order (the value is the validity bool in
checkfile mode). -/
def parsedEntries (cfMode : Bool) : List String → Except PyErr (List (String × HVal))
  | [] => .ok []
  | l :: rest =>
      if l.length > 0 then do
        let vk ← pySplit1 l
        let es ← parsedEntries cfMode rest
        .ok ((pyStrip vk.2,
          if cfMode then .hbool (pyStrip vk.1 == "=") else .hstr (pyStrip vk.1)) :: es)
      else parsedEntries cfMode rest

/-- Accumulate keys left to right, keeping the first occurrence only. -/
def addKeys (ks : List String) : List String → List String
  | [] => ks
  | k :: rest => addKeys (if k ∈ ks then ks else ks ++ [k]) rest

/-- The distinct keys of a list in first-occurrence order — the keys a
Python `dict` built by repeated insertion ends up with. -/
def distinctKeys (ks : List String) : List String := addKeys [] ks

/-- The value stored under a key in the built dict (keys are unique, so the
first match is the binding). -/
def lookupFirst (m : List (String × HVal)) (k : String) : Option HVal :=
  (m.find? (fun kv => kv.1 == k)).map Prod.snd

/-- The value of the last parsed entry with the given key (last write
wins). -/
def lookupLast (es : List (String × HVal)) (k : String) : Option HVal :=
  (es.reverse.find? (fun kv => kv.1 == k)).map Prod.snd

/-- Whether `cs` starts with the pattern chars `ps`. -/
def startsWithChars : List Char → List Char → Bool
  | [], _ => true
  | _ :: _, [] => false
  | p :: ps, c :: cs => p == c && startsWithChars ps cs

/-- The literal `Transferred:` of the legacy block regex
`Transferred:(?:.|\n)+ETA \d+s` (src/rclone.py, line 84). -/
def transferredColonChars : List Char := "Transferred:".toList

/-- The literal `Transferred` of the legacy line regex `Transferred.*\ds`
(src/rclone.py, line 91). -/
def transferredChars : List Char := "Transferred".toList

/-- Whether `ETA \d+s` matches at the head of `cs`: the literal `ETA `, a
nonempty digit run, then `s`.  (`s` is not a digit, so the backtracking
`\d+s` succeeds exactly when the character after the maximal digit run is
`s`.) -/
def etaAt : List Char → Bool
  | 'E' :: 'T' :: 'A' :: ' ' :: rest =>
      !(rest.takeWhile Char.isDigit).isEmpty &&
        (match rest.drop (rest.takeWhile Char.isDigit).length with
         | 's' :: _ => true
         | _ => false)
  | _ => false

/-- Length of the `ETA \d+s` match at the head of `cs` (meaningful when
`etaAt cs`): `ETA ` plus the digit run plus `s`. -/
def etaMatchLen (cs : List Char) : ℕ :=
  5 + ((cs.drop 4).takeWhile Char.isDigit).length

/-- The largest offset in `cs` at which `ETA \d+s` matches: the greedy
`(?:.|\n)+` of the block regex backtracks from the end, so the block ends at
the last possible `ETA \d+s`. -/
def lastEtaOff : List Char → Option ℕ
  | [] => none
  | cs@(_ :: rest) =>
      match lastEtaOff rest with
      | some r => some (r + 1)
      | none => if etaAt cs then some 0 else none

/-- First match of `re.findall(r'Transferred:(?:.|\n)+ETA \d+s', buffer)`
(src/rclone.py, line 84): leftmost occurrence of `Transferred:` followed, at
distance at least one character, by `ETA \d+s`; the greedy any-char group
extends the match to the last such `ETA \d+s`. -/
def blockOf : List Char → Option (List Char)
  | [] => none
  | cs@(_ :: rest) =>
      if startsWithChars transferredColonChars cs then
        match lastEtaOff (cs.drop 13) with
        | some q => some (cs.take (13 + q + etaMatchLen (cs.drop (13 + q))))
        | none => blockOf rest
      else blockOf rest

/-- Whether the legacy buffer contains a complete transferred block with a
terminating ETA marker. -/
def legacyBlockMatch (cs : List Char) : Bool := (blockOf cs).isSome

/-- The largest index `i` with a digit at `i` and `s` at `i + 1` (the end of
the greedy `.*\ds`). -/
def lastDigitSIdx : List Char → Option ℕ
  | [] => none
  | c :: rest =>
      match lastDigitSIdx rest with
      | some r => some (r + 1)
      | none =>
          if c.isDigit then
            match rest with
            | 's' :: _ => some 0
            | _ => none
          else none

/-- First match of `re.findall(r'Transferred.*\ds', transferred_block)`
(src/rclone.py, line 91): leftmost `Transferred` whose line segment (`.`
does not cross a newline) contains a digit followed by `s`; the greedy `.*`
runs to the last such pair in the segment. -/
def firstTransferredLine : List Char → Option (List Char)
  | [] => none
  | cs@(_ :: rest) =>
      if startsWithChars transferredChars cs then
        match lastDigitSIdx ((cs.drop 11).takeWhile (fun c => !(c == '\n'))) with
        | some i =>
            some (transferredChars ++
              ((cs.drop 11).takeWhile (fun c => !(c == '\n'))).take (i + 2))
        | none => firstTransferredLine rest
      else firstTransferredLine rest

/-- Numeric value of a digit string, as Python `int`. -/
def digitsVal (ds : List Char) : ℕ := ds.foldl (fun a c => 10 * a + (c.toNat - 48)) 0

/-- `re.findall('[0-9]+%', line)` (src/rclone.py, line 98), each match
converted with `int(match[:-1])`: leftmost non-overlapping maximal digit
runs immediately followed by `%`.  The first argument is the reversed digit
run currently being scanned. -/
def percentScan : List Char → List Char → List ℕ
  | _, [] => []
  | run, '%' :: rest =>
      if run.isEmpty then percentScan [] rest
      else digitsVal run.reverse :: percentScan [] rest
  | run, c :: rest =>
      if c.isDigit then percentScan (c :: run) rest else percentScan [] rest

/-- The capture of `(\S+):` on a nonspace run: the backtracking greedy
`\S+` yields everything before the last `:` of the run (`none` when the run
has no `:`). -/
def lastColonSplit : List Char → Option (List Char)
  | [] => none
  | c :: rest =>
      match lastColonSplit rest with
      | some cap => some (c :: cap)
      | none => if c == ':' then some [] else none

/-- `re.findall(r'\* +(\S+):', transferred_block)` (src/rclone.py, line
94): at each `*` followed by at least one space, capture the nonspace run up
to its last `:`; scanning resumes after the matched `:` (fuel-driven
recursion; the fuel is the input length, and every step consumes at least
one character). -/
def starFilesAux : ℕ → List Char → List String
  | 0, _ => []
  | _ + 1, [] => []
  | fuel + 1, '*' :: rest =>
      if (rest.takeWhile (fun c => c == ' ')).isEmpty then starFilesAux fuel rest
      else
        match lastColonSplit
            ((rest.drop (rest.takeWhile (fun c => c == ' ')).length).takeWhile
              (fun c => !isPySpace c)) with
        | some cap =>
            String.mk cap ::
              starFilesAux fuel
                ((rest.drop (rest.takeWhile (fun c => c == ' ')).length).drop
                  (cap.length + 1))
        | none => starFilesAux fuel rest
  | fuel + 1, _ :: rest => starFilesAux fuel rest

/-- The transferring-files captures of the legacy block. -/
def starFiles (cs : List Char) : List String := starFilesAux cs.length cs

/-- Python `', '.join(...)`. -/
def joinCommaSep : List String → String
  | [] => ""
  | [s] => s
  | s :: rest => s ++ ", " ++ joinCommaSep rest

/-- The state of the legacy `_rclone_progress` read loop (src/rclone.py,
lines 74–100): the `progress` integer, the line `buffer`, and the
`alive_bar`'s text and manual fraction. -/
structure LegacyState where
  progress : ℕ
  buffer : List Char
  pbarText : String
  pbarValue : ℚ
deriving DecidableEq, Repr

/-- One iteration of the legacy byte loop (src/rclone.py, lines 78–100): a
non-newline byte is appended to the buffer; on a newline the block regex is
run — no match leaves everything (including the buffer) unchanged, a match
sets the bar text from the transferring files, clears the buffer, and
updates the progress from the last percentage of the first transferred line
(`transferred_lines[0]` raises `IndexError` when that inner findall is
empty). -/
def legacyStep (st : LegacyState) (c : Char) : Except PyErr LegacyState :=
  if c == '\n' then
    match blockOf st.buffer with
    | none => .ok st
    | some block =>
        match firstTransferredLine block with
        | none => .error .indexError
        | some line =>
            let text := "-> Currently processing " ++ joinCommaSep (starFiles block)
            let progress :=
              match (percentScan [] line).getLast? with
              | some v => v
              | none => st.progress
            .ok ⟨progress, [], text, (progress : ℚ) / 100⟩
  else .ok { st with buffer := st.buffer ++ [c] }

/-- C4 witness fixture: a legacy loop state buffering an incomplete
transferred block (no terminating ETA marker yet). -/
def c4LegacyState : LegacyState :=
  ⟨0, "Transferred:   	   50%".toList, "", 0⟩

/-- C4 witness fixture: a concrete modern read-loop state. -/
def c4DriverState : DriverState :=
  ⟨⟨[⟨0, "transfer", .num 0, .null, true⟩], 1⟩, [], [], []⟩

/-- C2 fixture: a fresh bar holding only the aggregate task (id 0), as set
up by `rclone_progress` before the read loop. -/
def c2Pbar0 : Pbar := ⟨[⟨0, "transfer", .num 0, .null, true⟩], 1⟩

/-- C2 fixture: a snapshot transferring only the file `a`. -/
def c2uA : Update :=
  ⟨[⟨.str "a", .num 100, .num 10, 1/10, .num 5⟩], .num 100, .num 10, 1/10, .num 5, .null⟩

/-- C2 fixture: the next snapshot, transferring only the file `b` (so at
most one subtask is ever concurrently active). -/
def c2uB : Update :=
  ⟨[⟨.str "b", .num 200, .num 20, 1/10, .num 5⟩], .num 200, .num 20, 1/10, .num 5, .null⟩

/-- C2 fixture: apply the `a` snapshot, then the `b` snapshot, from a fresh
bar and an empty subprocess dict — exactly the read loop's successive
`update_tasks` calls. -/
def c2Run : Except PyErr (Pbar × List (Json × ℕ)) := do
  let r1 ← update_tasks c2Pbar0 0 c2uA []
  update_tasks r1.1 0 c2uB r1.2

/-- C2 witness fixture: a bar with the aggregate task 0 and two already
registered subtasks. -/
def c2WPbar : Pbar :=
  ⟨[⟨0, "transfer", .num 0, .null, true⟩,
    ⟨1, " ├─a", .num 10, .num 100, false⟩,
    ⟨2, " ├─b", .num 20, .num 200, true⟩], 3⟩

/-- C2 witness fixture: the subprocess dict matching `c2WPbar`. -/
def c2WSubs : List (String × ℕ) := [("a", 1), ("b", 2)]

/-- C6 fixture: a fresh bar holding only the aggregate task (id 0). -/
def c6Pbar0 : Pbar := ⟨[⟨0, "transfer", .num 0, .null, true⟩], 1⟩

/-- C6 fixture: a snapshot transferring the files `a` and `b`. -/
def c6uAB : Update :=
  ⟨[⟨.str "a", .num 100, .num 10, 1/10, .num 5⟩,
    ⟨.str "b", .num 200, .num 20, 1/10, .num 5⟩],
   .num 300, .num 30, 1/10, .num 10, .null⟩

/-- C6 fixture: one application of the snapshot from the fresh bar. -/
def c6Run1 : Except PyErr (Pbar × List (Json × ℕ)) :=
  update_tasks c6Pbar0 0 c6uAB []

/-- C6 fixture: a second application of the very same snapshot. -/
def c6Run2 : Except PyErr (Pbar × List (Json × ℕ)) := do
  let r1 ← c6Run1
  update_tasks r1.1 0 c6uAB r1.2

@[simp] theorem Except.ok_bind (a : α) (f : α → Except ε β) :
    (Except.ok a : Except ε α) >>= f = f a := rfl

@[simp] theorem Except.error_bind (e : ε) (f : α → Except ε β) :
    (Except.error e : Except ε α) >>= f = .error e := rfl

@[simp] theorem Except.map_ok_eq (f : α → β) (a : α) :
    (f <$> (Except.ok a : Except ε α)) = .ok (f a) := rfl

@[simp] theorem pyGet_toJson_bytes (s : WFStats) (d : Json) :
    pyGet s.toJson "bytes" d = .ok (.num s.bytes) := rfl

@[simp] theorem pyGet_toJson_totalBytes (s : WFStats) (d : Json) :
    pyGet s.toJson "totalBytes" d = .ok (.num s.totalBytes) := rfl

@[simp] theorem pyGet_toJson_transferring (s : WFStats) (d : Json) :
    pyGet s.toJson "transferring" d = .ok (.arr (s.transferring.map WFTransfer.toJson)) := rfl

@[simp] theorem pyIndex_toJson_bytes (s : WFStats) :
    pyIndex s.toJson "bytes" = .ok (.num s.bytes) := rfl

@[simp] theorem pyIndex_toJson_totalBytes (s : WFStats) :
    pyIndex s.toJson "totalBytes" = .ok (.num s.totalBytes) := rfl

@[simp] theorem pyIndex_toJson_speed (s : WFStats) :
    pyIndex s.toJson "speed" = .ok (.num s.speed) := rfl

@[simp] theorem pyGet_logLine_level (s : WFStats) (d : Json) :
    pyGet s.logLine "level" d = .ok (.str "info") := rfl

@[simp] theorem pyGet_logLine_stats (s : WFStats) (d : Json) :
    pyGet s.logLine "stats" d = .ok s.toJson := rfl

@[simp] theorem pyGet_wfTransfer_size (t : WFTransfer) (d : Json) :
    pyGet t.toJson "size" d = .ok (.num t.size) := rfl

@[simp] theorem pyGet_wfTransfer_bytes (t : WFTransfer) (d : Json) :
    pyGet t.toJson "bytes" d = .ok (.num t.bytes) := rfl

@[simp] theorem pyGet_wfTransfer_name (t : WFTransfer) (d : Json) :
    pyGet t.toJson "name" d = .ok (.str t.name) := rfl

@[simp] theorem pyGet_wfTransfer_speed (t : WFTransfer) (d : Json) :
    pyGet t.toJson "speed" d = .ok (.num t.speed) := rfl

@[simp] theorem isNone_toJson (s : WFStats) : isNone s.toJson = false := rfl

theorem mkTask_wfTransfer (t : WFTransfer) : mkTask t.toJson = .ok t.expected := by
  by_cases h : t.size = 0 <;>
    simp [mkTask, WFTransfer.expected, pyNeZero, toNum, pyDiv, h]

theorem mapTasks_wf (l : List WFTransfer) :
    mapTasks (l.map WFTransfer.toJson) = .ok (l.map WFTransfer.expected) := by
  induction l with
  | nil => rfl
  | cons t rest ih => simp [mapTasks, mkTask_wfTransfer, ih]

/-- C1: for every JSON log line carrying a stats record with `totalBytes > 0`,
`extract_rclone_progress` returns a valid update whose aggregate progress is
`bytes / totalBytes` and whose per-subtask progress is `bytes_i / size_i`
(`0` when `size_i = 0`). -/
theorem extract_rclone_progress_ratio_c1 (s : WFStats) (h : 0 < s.totalBytes) :
    extract_rclone_progress (.ok s.logLine) =
      .ok (.update ⟨s.transferring.map WFTransfer.expected, .num s.totalBytes, .num s.bytes,
        s.bytes / s.totalBytes, .num s.speed, s.toJson⟩) := by
  simp [extract_rclone_progress, decodeStats, pyEqStr, pyGt0, toNum, pyIter,
    pyNeZero, pyDiv, mapTasks_wf, h, h.ne']

/-- C1 witness: the theorem instantiated at a concrete stats record. -/
theorem extract_rclone_progress_ratio_c1_witness :
    0 < c1Fixture.totalBytes ∧
      extract_rclone_progress (.ok c1Fixture.logLine) =
        .ok (.update ⟨c1Fixture.transferring.map WFTransfer.expected, .num c1Fixture.totalBytes,
          .num c1Fixture.bytes, c1Fixture.bytes / c1Fixture.totalBytes, .num c1Fixture.speed,
          c1Fixture.toJson⟩) :=
  ⟨by norm_num [c1Fixture], extract_rclone_progress_ratio_c1 c1Fixture (by norm_num [c1Fixture])⟩

/-- C4 counterexample: the input line `"5"` is valid JSON (`json.loads("5")`
returns the number `5`), so the decoder reaches `log_item.get("level", None)`
on a non-dict and raises `AttributeError` — `except ValueError` does not
catch it.  This refutes "for every input string, the decoder terminates
normally and never raises an exception". -/
theorem extract_rclone_progress_c4_counterexample :
    extract_rclone_progress (.ok (.num 5)) = .error .attributeError := rfl

/-- C4 (amended): a modern line that fails JSON parsing (the `ValueError` of
`json.loads`) is classified as not actionable (`(False, None)`) without an
exception, and the read loop leaves its state untouched and continues
buffering; in the legacy decoder, a buffer without a terminating ETA marker
is classified incomplete: a non-newline byte is just appended to the buffer,
and a newline whose buffer has no complete `Transferred:…ETA \d+s` block
leaves progress, bar and buffer unchanged — in both cases without an
exception.  (A modern line that parses to a non-object JSON value instead
raises `AttributeError`; see the counterexample.) -/
theorem extract_malformed_ignore_c4 (show_progress : Bool) (total_progress_id : ℕ)
    (st : DriverState) (lst : LegacyState) (c : Char) (hc : c ≠ '\n')
    (hm : legacyBlockMatch lst.buffer = false) :
    extract_rclone_progress (.error .valueError) = .ok ExtractResult.none ∧
      processLine show_progress total_progress_id st (.error .valueError) = .ok st ∧
      legacyStep lst c = .ok { lst with buffer := lst.buffer ++ [c] } ∧
      legacyStep lst '\n' = .ok lst := by
  refine ⟨rfl, rfl, ?_, ?_⟩
  · have hcc : ¬((c == '\n') = true) := by simp [hc]
    rw [legacyStep, if_neg hcc]
  · have hb : blockOf lst.buffer = none := by
      cases hbb : blockOf lst.buffer with
      | none => rfl
      | some b =>
          rw [legacyBlockMatch, hbb] at hm
          simp at hm
    rw [legacyStep, if_pos (show ('\n' == '\n') = true from rfl), hb]

/-- C4 witness: the amended theorem instantiated at a concrete non-newline
byte and a concrete incomplete legacy buffer. -/
theorem extract_malformed_ignore_c4_witness :
    ('x' ≠ '\n') ∧ legacyBlockMatch c4LegacyState.buffer = false ∧
    (extract_rclone_progress (.error .valueError) = .ok ExtractResult.none ∧
      processLine true 0 c4DriverState (.error .valueError) = .ok c4DriverState ∧
      legacyStep c4LegacyState 'x' =
        .ok { c4LegacyState with buffer := c4LegacyState.buffer ++ ['x'] } ∧
      legacyStep c4LegacyState '\n' = .ok c4LegacyState) :=
  ⟨by decide, by decide,
    extract_malformed_ignore_c4 true 0 c4DriverState c4LegacyState 'x' (by decide)
      (by decide)⟩

/-- C3: a stats record with `totalBytes` absent or `0` is classified as not
actionable (`(False, None)`), and the read-loop iteration for that line
leaves the aggregate/subtask state untouched and calls no listener. -/
theorem extract_zero_total_ignored_c3 (entries sentries : List (String × Json))
    (show_progress : Bool) (total_progress_id : ℕ) (st : DriverState)
    (hlevel : jlookup entries "level" = some (.str "info"))
    (hstats : jlookup entries "stats" = some (.obj sentries))
    (htb : jlookup sentries "totalBytes" = none ∨
      jlookup sentries "totalBytes" = some (.num 0)) :
    extract_rclone_progress (.ok (.obj entries)) = .ok ExtractResult.none ∧
      processLine show_progress total_progress_id st (.ok (.obj entries)) = .ok st := by
  have hex : extract_rclone_progress (.ok (.obj entries)) = .ok ExtractResult.none := by
    rcases htb with h | h <;>
      simp [extract_rclone_progress, decodeStats, pyGet, hlevel, hstats, h, pyEqStr, isNone,
        pyGt0, toNum, pure, Except.pure]
  refine ⟨hex, ?_⟩
  simp [processLine, hex, pure, Except.pure]

/-- C3 witness: the theorem instantiated at a concrete zero-total line and a
concrete loop state. -/
theorem extract_zero_total_ignored_c3_witness :
    (jlookup [("level", Json.str "info"),
        ("stats", Json.obj [("totalBytes", Json.num 0)])] "level" = some (.str "info")) ∧
    extract_rclone_progress (.ok (.obj [("level", Json.str "info"),
        ("stats", Json.obj [("totalBytes", Json.num 0)])])) = .ok ExtractResult.none ∧
    processLine true 0 ⟨⟨[⟨0, "t", .num 0, .null, true⟩], 1⟩, [], [], []⟩
        (.ok (.obj [("level", Json.str "info"),
          ("stats", Json.obj [("totalBytes", Json.num 0)])])) =
      .ok ⟨⟨[⟨0, "t", .num 0, .null, true⟩], 1⟩, [], [], []⟩ := by
  have h := extract_zero_total_ignored_c3
    [("level", Json.str "info"), ("stats", Json.obj [("totalBytes", Json.num 0)])]
    [("totalBytes", Json.num 0)] true 0
    ⟨⟨[⟨0, "t", .num 0, .null, true⟩], 1⟩, [], [], []⟩ rfl rfl (Or.inr rfl)
  exact ⟨rfl, h.1, h.2⟩

/-- C5: for each of the five transfer operations, a non-zero exit code
raises an `RcloneException` whose message consists of the operation
description followed by the newline-joined accumulated error lines, and a
zero exit code returns successfully. -/
theorem transfer_op_outcome_c5 (op : TransferOp) (in_path out_path : String) (rc : Int)
    (errors : List String) :
    (rc ≠ 0 → op.run in_path out_path rc errors =
        .error ⟨op.command_descr ++ " from " ++ in_path ++ " to " ++ out_path ++ " failed",
          String.intercalate "\n" errors⟩ ∧
      (RcloneException.message
          ⟨op.command_descr ++ " from " ++ in_path ++ " to " ++ out_path ++ " failed",
            String.intercalate "\n" errors⟩ =
        op.command_descr ++ " from " ++ in_path ++ " to " ++ out_path ++ " failed" ++
          ". Error message: \n" ++ String.intercalate "\n" errors)) ∧
    (rc = 0 → op.run in_path out_path rc errors = .ok ()) := by
  constructor
  · intro h
    exact ⟨by simp [TransferOp.run, rclone_transfer_operation, h], rfl⟩
  · intro h
    simp [TransferOp.run, rclone_transfer_operation, h]

/-- C5 witness: exit code 1 of `copy` with the captured error line
`"directory not found"` yields the exception whose message ends in that
line; exit code 0 succeeds. -/
theorem transfer_op_outcome_c5_witness :
    TransferOp.copy.run "remote:data" "local" 1 ["directory not found"] =
        .error ⟨"Copying from remote:data to local failed", "directory not found"⟩ ∧
      TransferOp.copy.run "remote:data" "local" 0 [] = .ok () := by
  refine ⟨?_, (transfer_op_outcome_c5 .copy "remote:data" "local" 0 []).2 rfl⟩
  have h := (transfer_op_outcome_c5 .copy "remote:data" "local" 1 ["directory not found"]).1
    (by decide)
  exact h.1

/-- C8: once the configuration singleton has been constructed for the first
time (with any path, also implicitly with `None` by the first executed
command), every later construction — with whatever path — leaves
`config_path` (and the initialized flag) unchanged. -/
theorem config_path_immutable_c8 (p0 : Option String) (later : List (Option String)) :
    later.foldl Config.callInit (Config.fresh.callInit p0) = ⟨true, p0⟩ := by
  have hinit : Config.fresh.callInit p0 = ⟨true, p0⟩ := rfl
  rw [hinit]
  induction later with
  | nil => rfl
  | cons c rest ih => simpa [Config.callInit] using ih

theorem pyEndsWith_append_colon (s : String) : pyEndsWith (s ++ ":") ":" = true := by
  simp [pyEndsWith, List.isSuffixOf_iff_suffix, String.data_append]

/-- C10: for every remote name not already ending in `":"`,
`check_remote_existing` gives the same answer as for the name with the
trailing colon appended: the colon is normalized before the membership
test. -/
theorem check_remote_existing_normalizes_c10 (remotes : List String) (remote_name : String)
    (h : pyEndsWith remote_name ":" = false) :
    check_remote_existing remotes remote_name =
      check_remote_existing remotes (remote_name ++ ":") := by
  simp [check_remote_existing, h, pyEndsWith_append_colon]

/-- C10 witness: the theorem instantiated at `"gdrive"` against the remote
list `["gdrive:"]`. -/
theorem check_remote_existing_normalizes_c10_witness :
    pyEndsWith "gdrive" ":" = false ∧
      check_remote_existing ["gdrive:"] "gdrive" =
        check_remote_existing ["gdrive:"] ("gdrive" ++ ":") :=
  ⟨by decide, check_remote_existing_normalizes_c10 ["gdrive:"] "gdrive" (by decide)⟩

/-- C7: the (spec-modelled) unit conversion maps `(value, unit)` to
`value * 1024 ^ exponent` with the fixed table B=0, KiB=1, …, YiB=8;
`convert_to_bytes(1, "MiB") = 1048576`, `convert_to_bytes(2.5, "GiB") =
2.5 * 1024 ^ 3`, and an unrecognized unit is an error, never `0`. -/
theorem convert_to_bytes_c7 :
    convert_to_bytes 1 "MiB" = .ok 1048576 ∧
    convert_to_bytes (5 / 2) "GiB" = .ok ((5 / 2) * 1024 ^ 3) ∧
    (∀ (v : ℚ) (u : String) (e : ℕ), unitExponent u = some e →
      convert_to_bytes v u = .ok (v * 1024 ^ e)) ∧
    (∀ (v : ℚ) (u : String), unitExponent u = none →
      convert_to_bytes v u = .error ("unrecognized unit: " ++ u)) ∧
    unitExponent "B" = some 0 ∧ unitExponent "KiB" = some 1 ∧
    unitExponent "MiB" = some 2 ∧ unitExponent "GiB" = some 3 ∧
    unitExponent "TiB" = some 4 ∧ unitExponent "PiB" = some 5 ∧
    unitExponent "EiB" = some 6 ∧ unitExponent "ZiB" = some 7 ∧
    unitExponent "YiB" = some 8 := by
  refine ⟨by norm_num [convert_to_bytes, show unitExponent "MiB" = some 2 from rfl],
    by norm_num [convert_to_bytes, show unitExponent "GiB" = some 3 from rfl],
    ?_, ?_, rfl, rfl, rfl, rfl, rfl, rfl, rfl, rfl, rfl⟩
  · intro v u e h
    simp [convert_to_bytes, h]
  · intro v u h
    simp [convert_to_bytes, h]

/-- C7 witness: the universally quantified parts instantiated at `"KiB"`
and an unknown unit `"MB"` (decimal prefixes are not in the table). -/
theorem convert_to_bytes_c7_witness :
    convert_to_bytes 3 "KiB" = .ok (3 * 1024 ^ 1) ∧
      convert_to_bytes 3 "MB" = .error ("unrecognized unit: " ++ "MB") :=
  ⟨convert_to_bytes_c7.2.2.1 3 "KiB" 1 rfl, convert_to_bytes_c7.2.2.2.1 3 "MB" rfl⟩




theorem any_key_eq_mem (d : List (String × HVal)) (k : String) :
    d.any (fun kv => kv.1 == k) = decide (k ∈ d.map Prod.fst) := by
  induction d with
  | nil => rfl
  | cons kv rest ih =>
      by_cases h : kv.1 = k
      · simp [List.any_cons, h, ih]
      · simp [List.any_cons, h, ih, Ne.symm h]
        rw [Bool.beq_comm]

theorem map_fst_overwrite (d : List (String × HVal)) (k : String) (v : HVal) :
    (d.map (fun kv => if kv.1 == k then (k, v) else kv)).map Prod.fst = d.map Prod.fst := by
  induction d with
  | nil => rfl
  | cons kv rest ih =>
      simp only [List.map_cons, ih]
      by_cases h : (kv.1 == k) = true
      · rw [if_pos h, eq_of_beq h]
      · rw [if_neg h]

theorem dictInsert_keys (d : List (String × HVal)) (k : String) (v : HVal) :
    (dictInsert d k v).map Prod.fst =
      if k ∈ d.map Prod.fst then d.map Prod.fst else d.map Prod.fst ++ [k] := by
  rw [dictInsert, any_key_eq_mem]
  by_cases h : k ∈ d.map Prod.fst
  · rw [if_pos (by simpa using h), if_pos h, map_fst_overwrite]
  · rw [if_neg (by simpa using h), if_neg h, List.map_append]
    rfl

theorem keys_foldl_insert (es : List (String × HVal)) (d : List (String × HVal)) :
    ((es.foldl (fun d kv => dictInsert d kv.1 kv.2) d).map Prod.fst) =
      addKeys (d.map Prod.fst) (es.map Prod.fst) := by
  induction es generalizing d with
  | nil => rfl
  | cons e rest ih =>
      simp only [List.foldl_cons, List.map_cons, addKeys]
      rw [ih, dictInsert_keys]

theorem find?_overwrite_hit (d : List (String × HVal)) (k0 : String) (v : HVal) :
    (d.map (fun kv => if kv.1 == k0 then (k0, v) else kv)).find? (fun kv => kv.1 == k0) =
      (d.find? (fun kv => kv.1 == k0)).map (fun _ => (k0, v)) := by
  induction d with
  | nil => rfl
  | cons kv rest ih =>
      rw [List.map_cons]
      by_cases h : (kv.1 == k0) = true
      · rw [if_pos h]
        have hh : (((k0, v) : String × HVal).1 == k0) = true := by simp
        simp only [List.find?_cons, hh, h]
        rfl
      · rw [if_neg h]
        simp only [List.find?_cons, h, Bool.false_eq_true, ih]

theorem find?_overwrite_miss (d : List (String × HVal)) (k0 k : String) (v : HVal)
    (hne : k ≠ k0) :
    (d.map (fun kv => if kv.1 == k0 then (k0, v) else kv)).find? (fun kv => kv.1 == k) =
      d.find? (fun kv => kv.1 == k) := by
  induction d with
  | nil => rfl
  | cons kv rest ih =>
      rw [List.map_cons]
      by_cases h : (kv.1 == k0) = true
      · have h1 : (((k0, v) : String × HVal).1 == k) = false := by
          simp only [beq_eq_false_iff_ne, ne_eq]
          exact fun hh => hne hh.symm
        have h2 : (kv.1 == k) = false := by
          simp only [beq_iff_eq] at h
          simp only [beq_eq_false_iff_ne, ne_eq, h]
          exact fun hh => hne hh.symm
        rw [if_pos h]
        simp only [List.find?_cons, h1, h2, ih]
      · rw [if_neg h]
        by_cases h3 : (kv.1 == k) = true
        · simp only [List.find?_cons, h3]
        · simp only [List.find?_cons, Bool.not_eq_true] at h3 ⊢
          simp only [List.find?_cons, h3, ih]

theorem lookupFirst_dictInsert (d : List (String × HVal)) (k0 k : String) (v : HVal) :
    lookupFirst (dictInsert d k0 v) k = if k = k0 then some v else lookupFirst d k := by
  rw [dictInsert]
  by_cases hpres : (d.any fun kv => kv.1 == k0) = true
  · rw [if_pos hpres]
    by_cases hkk : k = k0
    · subst hkk
      rw [lookupFirst, find?_overwrite_hit, if_pos rfl]
      rcases List.any_eq_true.mp hpres with ⟨x, hx, hbeq⟩
      cases hfind : d.find? (fun kv => kv.1 == k) with
      | none => exact absurd (List.find?_eq_none.mp hfind x hx) (by simp [hbeq])
      | some y => rfl
    · rw [lookupFirst, find?_overwrite_miss d k0 k v hkk, if_neg hkk]
      rfl
  · rw [if_neg hpres, lookupFirst, List.find?_append]
    by_cases hkk : k = k0
    · subst hkk
      have hnone : d.find? (fun kv => kv.1 == k) = none := by
        rw [List.find?_eq_none]
        intro x hx
        intro hbeq
        exact hpres (List.any_eq_true.mpr ⟨x, hx, hbeq⟩)
      have hh : (((k, v) : String × HVal).1 == k) = true := by simp
      rw [hnone, if_pos rfl]
      simp only [List.find?_cons, hh, List.find?_nil]
      rfl
    · have h1 : (((k0, v) : String × HVal).1 == k) = false := by
        simp only [beq_eq_false_iff_ne, ne_eq]
        exact fun hh => hkk hh.symm
      rw [if_neg hkk]
      simp only [List.find?_cons, h1, List.find?_nil, Option.or_none]
      rfl

theorem lookupLast_cons (e : String × HVal) (rest : List (String × HVal)) (k : String) :
    lookupLast (e :: rest) k =
      match lookupLast rest k with
      | some v => some v
      | none => if e.1 == k then some e.2 else none := by
  simp only [lookupLast, List.reverse_cons, List.find?_append]
  cases hf : rest.reverse.find? (fun kv => kv.1 == k) with
  | none =>
      simp only [hf, Option.none_or, Option.map_none]
      by_cases he : (e.1 == k) = true
      · simp [List.find?_cons, he]
      · simp [List.find?_cons, he]
  | some y => simp [hf]

theorem lookupFirst_foldl (es : List (String × HVal)) (d : List (String × HVal)) (k : String) :
    lookupFirst (es.foldl (fun d kv => dictInsert d kv.1 kv.2) d) k =
      match lookupLast es k with
      | some v => some v
      | none => lookupFirst d k := by
  induction es generalizing d with
  | nil => simp [lookupLast]
  | cons e rest ih =>
      rw [List.foldl_cons, ih, lookupLast_cons]
      cases hl : lookupLast rest k with
      | some v => rfl
      | none =>
          rw [lookupFirst_dictInsert]
          by_cases he : e.1 = k
          · simp [he]
          · have hbe : (e.1 == k) = false := by simp [he]
            simp [hbe, Ne.symm he]

theorem buildHashsums_eq (cf : Bool) (lines : List String) (d : List (String × HVal)) :
    buildHashsums cf lines d =
      match parsedEntries cf lines with
      | .error e => .error e
      | .ok es => .ok (es.foldl (fun d kv => dictInsert d kv.1 kv.2) d) := by
  induction lines generalizing d with
  | nil => rfl
  | cons l rest ih =>
      rw [buildHashsums, parsedEntries]
      by_cases h : l.length > 0
      · simp only [h, if_true]
        cases hsp : pySplit1 l with
        | error e => simp [hsp]
        | ok vk =>
            simp only [hsp, Except.ok_bind]
            rw [ih]
            cases hpe : parsedEntries cf rest with
            | error e => simp
            | ok es => simp [List.foldl_cons]
      · simp only [h, if_false]
        rw [ih]

/-- C9: whenever `hash` succeeds without an output file, the parsed
`(filename, value)` entries of the output determine the result: exactly one
distinct filename yields the bare scalar value (hash string, or validity
bool in checkfile mode), anything else yields the mapping whose keys are
the distinct filenames (first-occurrence order) and whose values are the
last parsed value per filename. -/
theorem rclone_hash_scalar_or_mapping_c9 (path hn : String) (rc : Int)
    (stdout stderr : String) (cf : Option String) (r : Option HashOut)
    (hok : rclone_hash path hn rc stdout stderr cf none = .ok r) :
    ∃ es, parsedEntries cf.isSome (pySplitlines stdout) = .ok es ∧
      (∀ k, distinctKeys (es.map Prod.fst) = [k] →
        ∃ v, lookupLast es k = some v ∧ r = some (.scalar v)) ∧
      ((distinctKeys (es.map Prod.fst)).length ≠ 1 →
        ∃ m, r = some (.mapping m) ∧ m.map Prod.fst = distinctKeys (es.map Prod.fst) ∧
          ∀ k, lookupFirst m k = lookupLast es k) := by
  simp only [rclone_hash] at hok
  by_cases hE : hashExceptionFlag rc cf (pySplitlines stdout) = true
  · rw [if_pos hE] at hok
    exact absurd hok (by simp)
  · rw [if_neg hE] at hok
    simp only [Option.isNone_none, if_true] at hok
    rw [buildHashsums_eq] at hok
    cases hpe : parsedEntries cf.isSome (pySplitlines stdout) with
    | error e => rw [hpe] at hok; exact absurd hok (by simp)
    | ok es =>
        rw [hpe] at hok
        dsimp only at hok
        refine ⟨es, rfl, ?_, ?_⟩
        all_goals
          have hkeys : ((es.foldl (fun d kv => dictInsert d kv.1 kv.2) []).map Prod.fst) =
              distinctKeys (es.map Prod.fst) := keys_foldl_insert es []
        all_goals
          have hlook : ∀ k, lookupFirst (es.foldl (fun d kv => dictInsert d kv.1 kv.2) []) k =
              lookupLast es k := by
            intro k
            rw [lookupFirst_foldl]
            cases lookupLast es k <;> simp [lookupFirst]
        · intro k hdk
          have hmk : ((es.foldl (fun d kv => dictInsert d kv.1 kv.2) []).map Prod.fst) = [k] := by
            rw [hkeys, hdk]
          have hlen : (es.foldl (fun d kv => dictInsert d kv.1 kv.2) []).length = 1 := by
            have := congrArg List.length hmk
            simpa using this
          rw [if_pos hlen] at hok
          cases hm : es.foldl (fun d kv => dictInsert d kv.1 kv.2) [] with
          | nil => rw [hm] at hlen; simp at hlen
          | cons a tail =>
              rw [hm] at hmk
              have htail : tail = [] := by
                rcases tail with _ | ⟨b, tb⟩
                · rfl
                · simp at hmk
              have ha1 : a.1 = k := by
                rw [htail] at hmk
                simpa using hmk
              refine ⟨a.2, ?_, ?_⟩
              · have := hlook k
                rw [hm, htail] at this
                rw [← this, lookupFirst]
                simp [List.find?_cons, ha1]
              · rw [hm] at hok
                simp only [List.headI] at hok
                exact (Except.ok.inj hok).symm ▸ rfl
        · intro hne
          have hlen : (es.foldl (fun d kv => dictInsert d kv.1 kv.2) []).length ≠ 1 := by
            intro hc
            apply hne
            rw [← hkeys, List.length_map]
            exact hc
          rw [if_neg hlen] at hok
          exact ⟨es.foldl (fun d kv => dictInsert d kv.1 kv.2) [],
            (Except.ok.inj hok).symm, hkeys, hlook⟩

/-- C9 witness: the theorem instantiated at a successful single-file
hashsum invocation (`returncode 0`, output `"abc123  file1.txt"`, no
checkfile, no output file), whose result is the bare scalar hash. -/
theorem rclone_hash_scalar_or_mapping_c9_witness :
    ∃ es, parsedEntries (Option.isSome (none : Option String))
        (pySplitlines "abc123  file1.txt") = .ok es ∧
      (∀ k, distinctKeys (es.map Prod.fst) = [k] →
        ∃ v, lookupLast es k = some v ∧
          (some (HashOut.scalar (HVal.hstr "abc123")) : Option HashOut) =
            some (.scalar v)) ∧
      ((distinctKeys (es.map Prod.fst)).length ≠ 1 →
        ∃ m, (some (HashOut.scalar (HVal.hstr "abc123")) : Option HashOut) =
            some (.mapping m) ∧
          m.map Prod.fst = distinctKeys (es.map Prod.fst) ∧
          ∀ k, lookupFirst m k = lookupLast es k) :=
  rclone_hash_scalar_or_mapping_c9 "p" "sha1" 0 "abc123  file1.txt" "" none
    (some (.scalar (.hstr "abc123"))) rfl

theorem updApply_id (i : ℕ) (d : Option String) (c t : Option Json) (v : Option Bool)
    (tk : RTask) : (updApply i d c t v tk).id = tk.id := by
  rw [updApply]
  split <;> rfl

theorem updateTask_nextId (p : Pbar) (i : ℕ) (d : Option String) (c t : Option Json)
    (v : Option Bool) : (p.updateTask i d c t v).nextId = p.nextId := rfl

theorem updApply_visible_vnone (i : ℕ) (d : Option String) (c t : Option Json)
    (tk : RTask) : (updApply i d c t none tk).visible = tk.visible := by
  rw [updApply]
  split <;> rfl

theorem updApply_completed_cnone (i : ℕ) (d : Option String) (t : Option Json)
    (v : Option Bool) (tk : RTask) : (updApply i d none t v tk).completed = tk.completed := by
  rw [updApply]
  split <;> rfl

theorem updApply_total_tnone (i : ℕ) (d : Option String) (c : Option Json)
    (v : Option Bool) (tk : RTask) : (updApply i d c none v tk).total = tk.total := by
  rw [updApply]
  split <;> rfl

theorem find?_map_updApply (l : List RTask) (i : ℕ) (d : Option String) (c t : Option Json)
    (v : Option Bool) (j : ℕ) :
    (l.map (updApply i d c t v)).find? (fun tk => tk.id == j) =
      (l.find? (fun tk => tk.id == j)).map (updApply i d c t v) := by
  induction l with
  | nil => rfl
  | cons tk rest ih =>
      simp only [List.map_cons, List.find?_cons, updApply_id]
      by_cases h : (tk.id == j) = true
      · simp [h]
      · simp [h, ih]

theorem updateTask_find? (p : Pbar) (i : ℕ) (d : Option String) (c t : Option Json)
    (v : Option Bool) (j : ℕ) :
    ((p.updateTask i d c t v).tasks.find? (fun tk => tk.id == j)) =
      (p.tasks.find? (fun tk => tk.id == j)).map (updApply i d c t v) := by
  rw [Pbar.updateTask]
  exact find?_map_updApply p.tasks i d c t v j

theorem visibleOf_updateTask_self (p : Pbar) (i : ℕ) (d : Option String) (c t : Option Json)
    (b w : Bool) (h : p.visibleOf i = some w) :
    (p.updateTask i d c t (some b)).visibleOf i = some b := by
  rw [Pbar.visibleOf, updateTask_find?]
  rw [Pbar.visibleOf] at h
  cases hf : p.tasks.find? (fun tk => tk.id == i) with
  | none => rw [hf] at h; simp at h
  | some tk =>
      have hid : tk.id = i := by simpa using List.find?_some hf
      simp [updApply, hid]

theorem visibleOf_updateTask_ne (p : Pbar) (i j : ℕ) (d : Option String) (c t : Option Json)
    (v : Option Bool) (h : j ≠ i) :
    (p.updateTask i d c t v).visibleOf j = p.visibleOf j := by
  rw [Pbar.visibleOf, Pbar.visibleOf, updateTask_find?]
  cases hf : p.tasks.find? (fun tk => tk.id == j) with
  | none => rfl
  | some tk =>
      have hid : tk.id = j := by simpa using List.find?_some hf
      simp [updApply, hid, h]

theorem visibleOf_updateTask_vnone (p : Pbar) (i j : ℕ) (d : Option String)
    (c t : Option Json) :
    (p.updateTask i d c t none).visibleOf j = p.visibleOf j := by
  rw [Pbar.visibleOf, Pbar.visibleOf, updateTask_find?]
  cases hf : p.tasks.find? (fun tk => tk.id == j) with
  | none => rfl
  | some tk => simp [updApply_visible_vnone]

theorem completedOf_updateTask_self (p : Pbar) (i : ℕ) (d : Option String) (x : Json)
    (t : Option Json) (v : Option Bool) (w : Json) (h : p.completedOf i = some w) :
    (p.updateTask i d (some x) t v).completedOf i = some x := by
  rw [Pbar.completedOf, updateTask_find?]
  rw [Pbar.completedOf] at h
  cases hf : p.tasks.find? (fun tk => tk.id == i) with
  | none => rw [hf] at h; simp at h
  | some tk =>
      have hid : tk.id = i := by simpa using List.find?_some hf
      simp [updApply, hid]

theorem completedOf_updateTask_ne (p : Pbar) (i j : ℕ) (d : Option String) (c t : Option Json)
    (v : Option Bool) (h : j ≠ i) :
    (p.updateTask i d c t v).completedOf j = p.completedOf j := by
  rw [Pbar.completedOf, Pbar.completedOf, updateTask_find?]
  cases hf : p.tasks.find? (fun tk => tk.id == j) with
  | none => rfl
  | some tk =>
      have hid : tk.id = j := by simpa using List.find?_some hf
      simp [updApply, hid, h]

theorem completedOf_updateTask_cnone (p : Pbar) (i j : ℕ) (d : Option String)
    (t : Option Json) (v : Option Bool) :
    (p.updateTask i d none t v).completedOf j = p.completedOf j := by
  rw [Pbar.completedOf, Pbar.completedOf, updateTask_find?]
  cases hf : p.tasks.find? (fun tk => tk.id == j) with
  | none => rfl
  | some tk => simp [updApply_completed_cnone]

theorem totalOf_updateTask_self (p : Pbar) (i : ℕ) (d : Option String) (c : Option Json)
    (x : Json) (v : Option Bool) (w : Json) (h : p.totalOf i = some w) :
    (p.updateTask i d c (some x) v).totalOf i = some x := by
  rw [Pbar.totalOf, updateTask_find?]
  rw [Pbar.totalOf] at h
  cases hf : p.tasks.find? (fun tk => tk.id == i) with
  | none => rw [hf] at h; simp at h
  | some tk =>
      have hid : tk.id = i := by simpa using List.find?_some hf
      simp [updApply, hid]

theorem totalOf_updateTask_ne (p : Pbar) (i j : ℕ) (d : Option String) (c t : Option Json)
    (v : Option Bool) (h : j ≠ i) :
    (p.updateTask i d c t v).totalOf j = p.totalOf j := by
  rw [Pbar.totalOf, Pbar.totalOf, updateTask_find?]
  cases hf : p.tasks.find? (fun tk => tk.id == j) with
  | none => rfl
  | some tk =>
      have hid : tk.id = j := by simpa using List.find?_some hf
      simp [updApply, hid, h]

theorem totalOf_updateTask_tnone (p : Pbar) (i j : ℕ) (d : Option String)
    (c : Option Json) (v : Option Bool) :
    (p.updateTask i d c none v).totalOf j = p.totalOf j := by
  rw [Pbar.totalOf, Pbar.totalOf, updateTask_find?]
  cases hf : p.tasks.find? (fun tk => tk.id == j) with
  | none => rfl
  | some tk => simp [updApply_total_tnone]

theorem addTask_snd (p : Pbar) (d : String) (t : Json) (v : Bool) :
    (p.addTask d t v).2 = p.nextId := rfl

theorem addTask_nextId (p : Pbar) (d : String) (t : Json) (v : Bool) :
    (p.addTask d t v).1.nextId = p.nextId + 1 := rfl

theorem addTask_find?_ne (p : Pbar) (d : String) (t : Json) (v : Bool) (j : ℕ)
    (h : j ≠ p.nextId) :
    (p.addTask d t v).1.tasks.find? (fun tk => tk.id == j) =
      p.tasks.find? (fun tk => tk.id == j) := by
  rw [Pbar.addTask, List.find?_append]
  have hc : ((⟨p.nextId, d, .num 0, t, v⟩ : RTask).id == j) = false := by
    simp
    exact fun hh => h hh.symm
  simp [List.find?_cons, hc]

theorem addTask_visibleOf_ne (p : Pbar) (d : String) (t : Json) (v : Bool) (j : ℕ)
    (h : j ≠ p.nextId) : (p.addTask d t v).1.visibleOf j = p.visibleOf j := by
  rw [Pbar.visibleOf, Pbar.visibleOf, addTask_find?_ne p d t v j h]

theorem addTask_completedOf_ne (p : Pbar) (d : String) (t : Json) (v : Bool) (j : ℕ)
    (h : j ≠ p.nextId) : (p.addTask d t v).1.completedOf j = p.completedOf j := by
  rw [Pbar.completedOf, Pbar.completedOf, addTask_find?_ne p d t v j h]

theorem addTask_totalOf_ne (p : Pbar) (d : String) (t : Json) (v : Bool) (j : ℕ)
    (h : j ≠ p.nextId) : (p.addTask d t v).1.totalOf j = p.totalOf j := by
  rw [Pbar.totalOf, Pbar.totalOf, addTask_find?_ne p d t v j h]

theorem find?_id_none_of_lt (l : List RTask) (n : ℕ) (h : ∀ tk ∈ l, tk.id < n) :
    l.find? (fun tk => tk.id == n) = none := by
  rw [List.find?_eq_none]
  intro tk htk hbeq
  exact absurd (eq_of_beq hbeq) (Nat.ne_of_lt (h tk htk))

theorem addTask_find?_new (p : Pbar) (d : String) (t : Json) (v : Bool)
    (h : ∀ tk ∈ p.tasks, tk.id < p.nextId) :
    (p.addTask d t v).1.tasks.find? (fun tk => tk.id == p.nextId) =
      some ⟨p.nextId, d, .num 0, t, v⟩ := by
  rw [Pbar.addTask, List.find?_append, find?_id_none_of_lt p.tasks p.nextId h]
  simp [List.find?_cons]

theorem addTask_visibleOf_new (p : Pbar) (d : String) (t : Json) (v : Bool)
    (h : ∀ tk ∈ p.tasks, tk.id < p.nextId) :
    (p.addTask d t v).1.visibleOf p.nextId = some v := by
  rw [Pbar.visibleOf, addTask_find?_new p d t v h]
  rfl

theorem addTask_completedOf_new (p : Pbar) (d : String) (t : Json) (v : Bool)
    (h : ∀ tk ∈ p.tasks, tk.id < p.nextId) :
    (p.addTask d t v).1.completedOf p.nextId = some (.num 0) := by
  rw [Pbar.completedOf, addTask_find?_new p d t v h]
  rfl

theorem addTask_totalOf_new (p : Pbar) (d : String) (t : Json) (v : Bool)
    (h : ∀ tk ∈ p.tasks, tk.id < p.nextId) :
    (p.addTask d t v).1.totalOf p.nextId = some t := by
  rw [Pbar.totalOf, addTask_find?_new p d t v h]
  rfl

theorem visibleOf_of_exists (p : Pbar) (i : ℕ) (h : ∃ tk ∈ p.tasks, tk.id = i) :
    ∃ b, p.visibleOf i = some b := by
  rcases h with ⟨tk, htk, hid⟩
  rw [Pbar.visibleOf]
  cases hf : p.tasks.find? (fun tk => tk.id == i) with
  | none => exact absurd (List.find?_eq_none.mp hf tk htk) (by simp [hid])
  | some y => exact ⟨y.visible, rfl⟩

theorem completedOf_of_exists (p : Pbar) (i : ℕ) (h : ∃ tk ∈ p.tasks, tk.id = i) :
    ∃ x, p.completedOf i = some x := by
  rcases h with ⟨tk, htk, hid⟩
  rw [Pbar.completedOf]
  cases hf : p.tasks.find? (fun tk => tk.id == i) with
  | none => exact absurd (List.find?_eq_none.mp hf tk htk) (by simp [hid])
  | some y => exact ⟨y.completed, rfl⟩

theorem totalOf_of_exists (p : Pbar) (i : ℕ) (h : ∃ tk ∈ p.tasks, tk.id = i) :
    ∃ x, p.totalOf i = some x := by
  rcases h with ⟨tk, htk, hid⟩
  rw [Pbar.totalOf]
  cases hf : p.tasks.find? (fun tk => tk.id == i) with
  | none => exact absurd (List.find?_eq_none.mp hf tk htk) (by simp [hid])
  | some y => exact ⟨y.total, rfl⟩

theorem exists_id_updateTask (p : Pbar) (i : ℕ) (d : Option String) (c t : Option Json)
    (v : Option Bool) (j : ℕ) (h : ∃ tk ∈ p.tasks, tk.id = j) :
    ∃ tk ∈ (p.updateTask i d c t v).tasks, tk.id = j := by
  rcases h with ⟨tk, htk, hid⟩
  exact ⟨updApply i d c t v tk, List.mem_map_of_mem _ htk, by rw [updApply_id, hid]⟩

theorem exists_id_addTask (p : Pbar) (d : String) (t : Json) (v : Bool) (j : ℕ)
    (h : ∃ tk ∈ p.tasks, tk.id = j) :
    ∃ tk ∈ (p.addTask d t v).1.tasks, tk.id = j := by
  rcases h with ⟨tk, htk, hid⟩
  exact ⟨tk, List.mem_append_left _ htk, hid⟩

theorem exists_id_addTask_new (p : Pbar) (d : String) (t : Json) (v : Bool) :
    ∃ tk ∈ (p.addTask d t v).1.tasks, tk.id = p.nextId :=
  ⟨⟨p.nextId, d, .num 0, t, v⟩, List.mem_append_right _ (List.mem_singleton_self _), rfl⟩

theorem tasksLt_updateTask (p : Pbar) (i : ℕ) (d : Option String) (c t : Option Json)
    (v : Option Bool) (n : ℕ) (h : ∀ tk ∈ p.tasks, tk.id < n) :
    ∀ tk ∈ (p.updateTask i d c t v).tasks, tk.id < n := by
  intro tk htk
  rcases List.mem_map.mp htk with ⟨tk0, htk0, rfl⟩
  rw [updApply_id]
  exact h tk0 htk0

theorem tailMarker_nextId (p : Pbar) : (tailMarker p).nextId = p.nextId := by
  rw [tailMarker]
  split <;> rfl

theorem tailMarker_visibleOf (p : Pbar) (j : ℕ) :
    (tailMarker p).visibleOf j = p.visibleOf j := by
  rw [tailMarker]
  split
  · rw [visibleOf_updateTask_vnone]
  · rfl

theorem tailMarker_completedOf (p : Pbar) (j : ℕ) :
    (tailMarker p).completedOf j = p.completedOf j := by
  rw [tailMarker]
  split
  · rw [completedOf_updateTask_cnone]
  · rfl

theorem tailMarker_totalOf (p : Pbar) (j : ℕ) :
    (tailMarker p).totalOf j = p.totalOf j := by
  rw [tailMarker]
  split
  · rw [totalOf_updateTask_tnone]
  · rfl

theorem exists_id_tailMarker (p : Pbar) (j : ℕ) (h : ∃ tk ∈ p.tasks, tk.id = j) :
    ∃ tk ∈ (tailMarker p).tasks, tk.id = j := by
  rw [tailMarker]
  split
  · exact exists_id_updateTask _ _ _ _ _ _ _ h
  · exact h

theorem tasksLt_tailMarker (p : Pbar) (n : ℕ) (h : ∀ tk ∈ p.tasks, tk.id < n) :
    ∀ tk ∈ (tailMarker p).tasks, tk.id < n := by
  rw [tailMarker]
  split
  · exact tasksLt_updateTask _ _ _ _ _ _ _ h
  · exact h

theorem applyTaskP_found (p : Pbar) (s : List (String × ℕ)) (t : SubUpdate)
    (kv : String × ℕ) (hf : s.find? (fun kv => kv.1 == nameStr t.name) = some kv) :
    applyTaskP p s t =
      (p.updateTask kv.2 (some (" ├─" ++ nameStr t.name)) (some t.sent) (some t.total)
        (some (decide (s.length > 1))), s) := by
  rw [applyTaskP]
  rw [hf]

theorem applyTaskP_new (p : Pbar) (s : List (String × ℕ)) (t : SubUpdate)
    (hf : s.find? (fun kv => kv.1 == nameStr t.name) = none) :
    applyTaskP p s t =
      ((p.addTask " " (Json.num 100) false).1.updateTask p.nextId
          (some (" ├─" ++ nameStr t.name)) (some t.sent) (some t.total)
          (some (decide ((s ++ [(nameStr t.name, p.nextId)]).length > 1))),
        s ++ [(nameStr t.name, p.nextId)]) := by
  rw [applyTaskP]
  rw [hf]
  rfl

theorem applyTaskP_nextId_mono (p : Pbar) (s : List (String × ℕ)) (t : SubUpdate) :
    p.nextId ≤ (applyTaskP p s t).1.nextId := by
  cases hf : s.find? (fun kv => kv.1 == nameStr t.name) with
  | none => rw [applyTaskP_new p s t hf]; simp [updateTask_nextId, addTask_nextId]
  | some kv =>
      rw [applyTaskP_found p s t kv hf]
      simp [updateTask_nextId]

theorem applyTaskP_subs (p : Pbar) (s : List (String × ℕ)) (t : SubUpdate) :
    (applyTaskP p s t).2 = s ∨
      ((applyTaskP p s t).2 = s ++ [(nameStr t.name, p.nextId)] ∧
        nameStr t.name ∉ s.map Prod.fst) := by
  cases hf : s.find? (fun kv => kv.1 == nameStr t.name) with
  | none =>
      refine Or.inr ⟨by rw [applyTaskP_new p s t hf], ?_⟩
      intro hmem
      rcases List.mem_map.mp hmem with ⟨kv, hkv, hfst⟩
      exact absurd (List.find?_eq_none.mp hf kv hkv) (by simp [hfst])
  | some kv => exact Or.inl (by rw [applyTaskP_found p s t kv hf])

theorem applyTaskP_len (p : Pbar) (s : List (String × ℕ)) (t : SubUpdate) :
    s.length ≤ (applyTaskP p s t).2.length := by
  rcases applyTaskP_subs p s t with h | ⟨h, _⟩
  · rw [h]
  · rw [h]; simp

theorem applyTaskP_wf (p : Pbar) (s : List (String × ℕ)) (t : SubUpdate)
    (hwf : WFState p s) : WFState (applyTaskP p s t).1 (applyTaskP p s t).2 := by
  obtain ⟨h1, h2, h3, h4, h5⟩ := hwf
  cases hf : s.find? (fun kv => kv.1 == nameStr t.name) with
  | some kv =>
      rw [applyTaskP_found p s t kv hf]
      refine ⟨h1, h2, ?_, ?_, ?_⟩
      · intro i hi
        rw [updateTask_nextId]
        exact h3 i hi
      · intro i hi
        exact exists_id_updateTask _ _ _ _ _ _ _ (h4 i hi)
      · intro tk htk
        rw [updateTask_nextId]
        exact tasksLt_updateTask _ _ _ _ _ _ _ h5 tk htk
  | none =>
      rw [applyTaskP_new p s t hf]
      have hnm : nameStr t.name ∉ s.map Prod.fst := by
        intro hmem
        rcases List.mem_map.mp hmem with ⟨kv, hkv, hfst⟩
        exact absurd (List.find?_eq_none.mp hf kv hkv) (by simp [hfst])
      have hid : p.nextId ∉ s.map Prod.snd := by
        intro hmem
        exact absurd (h3 _ hmem) (lt_irrefl _)
      constructor
      · rw [List.map_append]
        exact List.Nodup.append h1 (List.nodup_singleton _) (by simpa using hnm)
      constructor
      · rw [List.map_append]
        exact List.Nodup.append h2 (List.nodup_singleton _) (by simpa using hid)
      constructor
      · intro i hi
        rw [updateTask_nextId, addTask_nextId]
        rw [List.map_append] at hi
        rcases List.mem_append.mp hi with h | h
        · exact Nat.lt_succ_of_lt (h3 i h)
        · simp at h
          rw [h]
          exact Nat.lt_succ_self _
      constructor
      · intro i hi
        rw [List.map_append] at hi
        rcases List.mem_append.mp hi with h | h
        · exact exists_id_updateTask _ _ _ _ _ _ _ (exists_id_addTask _ _ _ _ _ (h4 i h))
        · simp at h
          rw [h]
          exact exists_id_updateTask _ _ _ _ _ _ _ (exists_id_addTask_new _ _ _ _)
      · intro tk htk
        rw [updateTask_nextId, addTask_nextId]
        refine tasksLt_updateTask _ _ _ _ _ _ _ ?_ tk htk
        intro tk' htk'
        rw [Pbar.addTask] at htk'
        rcases List.mem_append.mp htk' with h | h
        · exact Nat.lt_succ_of_lt (h5 tk' h)
        · simp at h
          rw [h]
          exact Nat.lt_succ_self _

theorem loopP_wf (ts : List SubUpdate) (p : Pbar) (s : List (String × ℕ))
    (hwf : WFState p s) : WFState (loopP p s ts).1 (loopP p s ts).2 := by
  induction ts generalizing p s with
  | nil => exact hwf
  | cons t rest ih =>
      rw [loopP]
      exact ih _ _ (applyTaskP_wf p s t hwf)

theorem loopP_len (ts : List SubUpdate) (p : Pbar) (s : List (String × ℕ)) :
    s.length ≤ (loopP p s ts).2.length := by
  induction ts generalizing p s with
  | nil => exact le_refl _
  | cons t rest ih =>
      rw [loopP]
      exact le_trans (applyTaskP_len p s t) (ih _ _)

theorem loopP_nextId_mono (ts : List SubUpdate) (p : Pbar) (s : List (String × ℕ)) :
    p.nextId ≤ (loopP p s ts).1.nextId := by
  induction ts generalizing p s with
  | nil => exact le_refl _
  | cons t rest ih =>
      rw [loopP]
      exact le_trans (applyTaskP_nextId_mono p s t) (ih _ _)

theorem loopP_subs_ext (ts : List SubUpdate) (p : Pbar) (s : List (String × ℕ)) :
    ∃ ext, (loopP p s ts).2 = s ++ ext ∧
      (∀ kv ∈ ext, kv.1 ∈ ts.map (fun t => nameStr t.name)) ∧
      (∀ kv ∈ ext, p.nextId ≤ kv.2) := by
  induction ts generalizing p s with
  | nil => exact ⟨[], by simp [loopP], by simp, by simp⟩
  | cons t rest ih =>
      rw [loopP]
      rcases applyTaskP_subs p s t with h | ⟨h, _⟩
      · rw [h]
        rcases ih (applyTaskP p s t).1 s with ⟨ext, hext, hnames, hids⟩
        refine ⟨ext, hext, ?_, ?_⟩
        · intro kv hkv
          exact List.mem_cons_of_mem _ (hnames kv hkv)
        · intro kv hkv
          exact le_trans (applyTaskP_nextId_mono p s t) (hids kv hkv)
      · rw [h]
        rcases ih (applyTaskP p s t).1 (s ++ [(nameStr t.name, p.nextId)]) with
          ⟨ext, hext, hnames, hids⟩
        refine ⟨(nameStr t.name, p.nextId) :: ext, by simpa using hext, ?_, ?_⟩
        · intro kv hkv
          rcases List.mem_cons.mp hkv with h' | h'
          · rw [h']
            exact List.mem_cons_self _ _
          · exact List.mem_cons_of_mem _ (hnames kv h')
        · intro kv hkv
          rcases List.mem_cons.mp hkv with h' | h'
          · rw [h']
          · exact le_trans (applyTaskP_nextId_mono p s t) (hids kv h')

theorem lookupSub_append_left (s ext : List (String × ℕ)) (n : String)
    (h : n ∈ s.map Prod.fst) : lookupSub (s ++ ext) n = lookupSub s n := by
  rw [lookupSub, lookupSub, List.find?_append]
  cases hf : s.find? (fun kv => kv.1 == n) with
  | none =>
      rcases List.mem_map.mp h with ⟨kv, hkv, hfst⟩
      exact absurd (List.find?_eq_none.mp hf kv hkv) (by simp [hfst])
  | some kv => rfl

theorem loopP_lookup_pres (ts : List SubUpdate) (p : Pbar) (s : List (String × ℕ))
    (n : String) (h : n ∈ s.map Prod.fst) :
    lookupSub (loopP p s ts).2 n = lookupSub s n := by
  rcases loopP_subs_ext ts p s with ⟨ext, hext, -, -⟩
  rw [hext, lookupSub_append_left s ext n h]

theorem keys_mono_applyTaskP (p : Pbar) (s : List (String × ℕ)) (t : SubUpdate)
    (n : String) (h : n ∈ s.map Prod.fst) : n ∈ (applyTaskP p s t).2.map Prod.fst := by
  rcases applyTaskP_subs p s t with h' | ⟨h', _⟩
  · rw [h']; exact h
  · rw [h', List.map_append]
    exact List.mem_append_left _ h

theorem keys_mono_loopP (ts : List SubUpdate) (p : Pbar) (s : List (String × ℕ))
    (n : String) (h : n ∈ s.map Prod.fst) : n ∈ (loopP p s ts).2.map Prod.fst := by
  rcases loopP_subs_ext ts p s with ⟨ext, hext, -, -⟩
  rw [hext, List.map_append]
  exact List.mem_append_left _ h

theorem applyTaskP_name_mem (p : Pbar) (s : List (String × ℕ)) (t : SubUpdate) :
    nameStr t.name ∈ (applyTaskP p s t).2.map Prod.fst := by
  cases hf : s.find? (fun kv => kv.1 == nameStr t.name) with
  | none =>
      rw [applyTaskP_new p s t hf, List.map_append]
      exact List.mem_append_right _ (by simp)
  | some kv =>
      rw [applyTaskP_found p s t kv hf]
      have hm := List.mem_of_find?_eq_some hf
      have heq : kv.1 = nameStr t.name := by simpa using List.find?_some hf
      rw [← heq]
      exact List.mem_map_of_mem _ hm

theorem loopP_names_mem (ts : List SubUpdate) (p : Pbar) (s : List (String × ℕ)) :
    ∀ t ∈ ts, nameStr t.name ∈ (loopP p s ts).2.map Prod.fst := by
  induction ts generalizing p s with
  | nil => intro t ht; simp at ht
  | cons t0 rest ih =>
      intro t ht
      rw [loopP]
      rcases List.mem_cons.mp ht with h | h
      · rw [h]
        exact keys_mono_loopP rest _ _ _ (applyTaskP_name_mem p s t0)
      · exact ih _ _ t h

theorem find?_eq_of_mem_nodup (s : List (String × ℕ)) (kv : String × ℕ)
    (hnd : (s.map Prod.fst).Nodup) (hm : kv ∈ s) :
    s.find? (fun e => e.1 == kv.1) = some kv := by
  induction s with
  | nil => simp at hm
  | cons a rest ih =>
      rw [List.map_cons] at hnd
      rcases List.mem_cons.mp hm with h | h
      · rw [h]
        exact List.find?_cons_of_pos _ (by simp)
      · have hne : a.1 ≠ kv.1 := by
          intro hc
          apply (List.nodup_cons.mp hnd).1
          rw [hc]
          exact List.mem_map_of_mem _ h
        rw [List.find?_cons_of_neg _ (by simpa using hne)]
        exact ih (List.nodup_cons.mp hnd).2 h

theorem snd_inj_of_nodup (s : List (String × ℕ)) (a b : String × ℕ)
    (hnd : (s.map Prod.snd).Nodup) (ha : a ∈ s) (hb : b ∈ s) (h : a.2 = b.2) : a = b :=
  List.inj_on_of_nodup_map hnd ha hb h

theorem lookupSub_mem (s : List (String × ℕ)) (n : String) (i : ℕ)
    (h : lookupSub s n = some i) : ∃ kv ∈ s, kv.1 = n ∧ kv.2 = i := by
  rw [lookupSub] at h
  cases hf : s.find? (fun kv => kv.1 == n) with
  | none => rw [hf] at h; simp at h
  | some kv =>
      rw [hf] at h
      refine ⟨kv, List.mem_of_find?_eq_some hf, by simpa using List.find?_some hf, ?_⟩
      simpa using h

theorem lookupSub_ne_of_keys (s : List (String × ℕ)) (n m : String) (i j : ℕ)
    (hnd2 : (s.map Prod.snd).Nodup) (hn : lookupSub s n = some i)
    (hm : lookupSub s m = some j) (hne : n ≠ m) : i ≠ j := by
  rcases lookupSub_mem s n i hn with ⟨a, hma, hfa, hsa⟩
  rcases lookupSub_mem s m j hm with ⟨b, hmb, hfb, hsb⟩
  intro hc
  apply hne
  have : a = b := snd_inj_of_nodup s a b hnd2 hma hmb (by rw [hsa, hsb, hc])
  rw [← hfa, ← hfb, this]

theorem visibleOf_lt_nextId (p : Pbar) (i : ℕ) (b : Bool)
    (h5 : ∀ tk ∈ p.tasks, tk.id < p.nextId) (h : p.visibleOf i = some b) : i < p.nextId := by
  rw [Pbar.visibleOf] at h
  cases hf : p.tasks.find? (fun tk => tk.id == i) with
  | none => rw [hf] at h; simp at h
  | some tk =>
      have hid : tk.id = i := by simpa using List.find?_some hf
      rw [← hid]
      exact h5 tk (List.mem_of_find?_eq_some hf)

theorem lookupSub_key_mem (s : List (String × ℕ)) (n : String) (i : ℕ)
    (h : lookupSub s n = some i) : n ∈ s.map Prod.fst := by
  rcases lookupSub_mem s n i h with ⟨kv, hm, hf, -⟩
  rw [← hf]
  exact List.mem_map_of_mem _ hm

theorem applyTaskP_pres_vis (p : Pbar) (s : List (String × ℕ)) (t : SubUpdate)
    (hwf : WFState p s) (nm : String) (i : ℕ) (b : Bool)
    (hlk : lookupSub s nm = some i) (hvis : p.visibleOf i = some b)
    (hb : b = decide (s.length > 1) ∨
      b = decide ((applyTaskP p s t).2.length > 1) ∨ nameStr t.name ≠ nm) :
    lookupSub (applyTaskP p s t).2 nm = some i ∧
      (applyTaskP p s t).1.visibleOf i = some b := by
  obtain ⟨h1, h2, h3, h4, h5⟩ := hwf
  cases hf : s.find? (fun kv => kv.1 == nameStr t.name) with
  | some kv =>
      rw [applyTaskP_found p s t kv hf]
      refine ⟨hlk, ?_⟩
      by_cases hki : kv.2 = i
      · -- the write hits i: then t.name resolves to i, so the written value is b
        have hkeq : kv.1 = nameStr t.name := by simpa using List.find?_some hf
        have hlk2 : lookupSub s (nameStr t.name) = some kv.2 := by
          rw [lookupSub, hf]
          rfl
        have hnm : nameStr t.name = nm := by
          by_contra hne
          exact (lookupSub_ne_of_keys s (nameStr t.name) nm kv.2 i h2 hlk2 hlk hne) hki
        have hbval : b = decide (s.length > 1) := by
          rcases hb with h | h | h
          · exact h
          · rw [applyTaskP_found p s t kv hf] at h
            exact h
          · exact absurd hnm h
        rw [hbval, hki]
        exact visibleOf_updateTask_self _ _ _ _ _ _ b hvis
      · rw [visibleOf_updateTask_ne _ _ _ _ _ _ _ (fun hc => hki hc.symm)]
        exact hvis
  | none =>
      rw [applyTaskP_new p s t hf]
      have hilt : i < p.nextId := visibleOf_lt_nextId p i b h5 hvis
      have hine : i ≠ p.nextId := Nat.ne_of_lt hilt
      constructor
      · exact lookupSub_append_left s _ nm (lookupSub_key_mem s nm i hlk) ▸ hlk
      · rw [visibleOf_updateTask_ne _ _ _ _ _ _ _ hine,
          addTask_visibleOf_ne _ _ _ _ _ hine]
        exact hvis

theorem loopP_pres_vis_true (ts : List SubUpdate) (p : Pbar) (s : List (String × ℕ))
    (hwf : WFState p s) (hlen : 1 < s.length) (nm : String) (i : ℕ)
    (hlk : lookupSub s nm = some i) (hvis : p.visibleOf i = some true) :
    lookupSub (loopP p s ts).2 nm = some i ∧
      (loopP p s ts).1.visibleOf i = some true := by
  induction ts generalizing p s with
  | nil => exact ⟨hlk, hvis⟩
  | cons t rest ih =>
      rw [loopP]
      have hb : true = decide (s.length > 1) := by simp [hlen]
      have hstep := applyTaskP_pres_vis p s t ⟨hwf.1, hwf.2.1, hwf.2.2.1, hwf.2.2.2.1,
        hwf.2.2.2.2⟩ nm i true hlk hvis (Or.inl hb)
      exact ih _ _ (applyTaskP_wf p s t hwf) (lt_of_lt_of_le hlen (applyTaskP_len p s t))
        hstep.1 hstep.2

theorem applyTaskP_vis_true (p : Pbar) (s : List (String × ℕ)) (t : SubUpdate)
    (hwf : WFState p s) (hlen : 1 < s.length) :
    ∃ i, lookupSub (applyTaskP p s t).2 (nameStr t.name) = some i ∧
      (applyTaskP p s t).1.visibleOf i = some true := by
  obtain ⟨h1, h2, h3, h4, h5⟩ := hwf
  cases hf : s.find? (fun kv => kv.1 == nameStr t.name) with
  | some kv =>
      rw [applyTaskP_found p s t kv hf]
      refine ⟨kv.2, by rw [lookupSub, hf]; rfl, ?_⟩
      have hex : ∃ w, p.visibleOf kv.2 = some w := by
        apply visibleOf_of_exists
        apply h4
        exact List.mem_map_of_mem _ (List.mem_of_find?_eq_some hf)
      rcases hex with ⟨w, hw⟩
      have hd : decide (s.length > 1) = true := by simp [hlen]
      rw [← hd]
      exact visibleOf_updateTask_self _ _ _ _ _ _ w hw
  | none =>
      rw [applyTaskP_new p s t hf]
      refine ⟨p.nextId, ?_, ?_⟩
      · rw [lookupSub, List.find?_append, hf]
        simp [List.find?_cons]
      · have hadd : (p.addTask " " (Json.num 100) false).1.visibleOf p.nextId = some false :=
          addTask_visibleOf_new p _ _ _ h5
        have hd : decide ((s ++ [(nameStr t.name, p.nextId)]).length > 1) = true := by
          simp
          omega
        rw [← hd]
        exact visibleOf_updateTask_self _ _ _ _ _ _ false hadd

theorem loopP_vis_true (ts : List SubUpdate) (p : Pbar) (s : List (String × ℕ))
    (hwf : WFState p s) (hlen : 1 < s.length) :
    ∀ t ∈ ts, ∃ i, lookupSub (loopP p s ts).2 (nameStr t.name) = some i ∧
      (loopP p s ts).1.visibleOf i = some true := by
  induction ts generalizing p s with
  | nil => intro t ht; simp at ht
  | cons t0 rest ih =>
      intro t ht
      rw [loopP]
      rcases List.mem_cons.mp ht with h | h
      · rw [h]
        rcases applyTaskP_vis_true p s t0 hwf hlen with ⟨i, hlk, hvis⟩
        exact ⟨i, loopP_pres_vis_true rest _ _ (applyTaskP_wf p s t0 hwf)
          (lt_of_lt_of_le hlen (applyTaskP_len p s t0)) _ i hlk hvis |>.1,
          loopP_pres_vis_true rest _ _ (applyTaskP_wf p s t0 hwf)
          (lt_of_lt_of_le hlen (applyTaskP_len p s t0)) _ i hlk hvis |>.2⟩
      · exact ih _ _ (applyTaskP_wf p s t0 hwf)
          (lt_of_lt_of_le hlen (applyTaskP_len p s t0)) t h

theorem loopP_pres_vis_false (ts : List SubUpdate) (p : Pbar) (s : List (String × ℕ))
    (hwf : WFState p s) (hfin : (loopP p s ts).2.length ≤ 1) (nm : String) (i : ℕ)
    (hlk : lookupSub s nm = some i) (hvis : p.visibleOf i = some false) :
    lookupSub (loopP p s ts).2 nm = some i ∧
      (loopP p s ts).1.visibleOf i = some false := by
  induction ts generalizing p s with
  | nil => exact ⟨hlk, hvis⟩
  | cons t rest ih =>
      rw [loopP] at hfin ⊢
      have hlen1 : (applyTaskP p s t).2.length ≤ 1 :=
        le_trans (loopP_len rest _ _) hfin
      have hlen0 : s.length ≤ 1 := le_trans (applyTaskP_len p s t) hlen1
      have hb : false = decide ((applyTaskP p s t).2.length > 1) := by
        simp
        omega
      have hstep := applyTaskP_pres_vis p s t hwf nm i false hlk hvis (Or.inr (Or.inl hb))
      exact ih _ _ (applyTaskP_wf p s t hwf) hfin hstep.1 hstep.2

theorem applyTaskP_vis_false (p : Pbar) (s : List (String × ℕ)) (t : SubUpdate)
    (hwf : WFState p s) (hlen1 : (applyTaskP p s t).2.length ≤ 1) :
    ∃ i, lookupSub (applyTaskP p s t).2 (nameStr t.name) = some i ∧
      (applyTaskP p s t).1.visibleOf i = some false := by
  obtain ⟨h1, h2, h3, h4, h5⟩ := hwf
  have hlen0 : s.length ≤ 1 := le_trans (applyTaskP_len p s t) hlen1
  cases hf : s.find? (fun kv => kv.1 == nameStr t.name) with
  | some kv =>
      rw [applyTaskP_found p s t kv hf]
      refine ⟨kv.2, by rw [lookupSub, hf]; rfl, ?_⟩
      have hex : ∃ w, p.visibleOf kv.2 = some w := by
        apply visibleOf_of_exists
        apply h4
        exact List.mem_map_of_mem _ (List.mem_of_find?_eq_some hf)
      rcases hex with ⟨w, hw⟩
      have hd : decide (s.length > 1) = false := by
        simp
        omega
      rw [← hd]
      exact visibleOf_updateTask_self _ _ _ _ _ _ w hw
  | none =>
      rw [applyTaskP_new p s t hf]
      refine ⟨p.nextId, ?_, ?_⟩
      · rw [lookupSub, List.find?_append, hf]
        simp [List.find?_cons]
      · have hadd : (p.addTask " " (Json.num 100) false).1.visibleOf p.nextId = some false :=
          addTask_visibleOf_new p _ _ _ h5
        rw [applyTaskP_new p s t hf] at hlen1
        simp only [List.length_append, List.length_singleton] at hlen1
        have hd : decide ((s ++ [(nameStr t.name, p.nextId)]).length > 1) = false := by
          rw [decide_eq_false_iff_not]
          simp only [List.length_append, List.length_singleton]
          omega
        rw [hd]
        exact visibleOf_updateTask_self _ _ _ _ _ _ false hadd

theorem loopP_vis_false (ts : List SubUpdate) (p : Pbar) (s : List (String × ℕ))
    (hwf : WFState p s) (hfin : (loopP p s ts).2.length ≤ 1) :
    ∀ t ∈ ts, ∃ i, lookupSub (loopP p s ts).2 (nameStr t.name) = some i ∧
      (loopP p s ts).1.visibleOf i = some false := by
  induction ts generalizing p s with
  | nil => intro t ht; simp at ht
  | cons t0 rest ih =>
      intro t ht
      rw [loopP] at hfin ⊢
      have hlen1 : (applyTaskP p s t0).2.length ≤ 1 :=
        le_trans (loopP_len rest _ _) hfin
      rcases List.mem_cons.mp ht with h | h
      · rw [h]
        rcases applyTaskP_vis_false p s t0 hwf hlen1 with ⟨i, hlk, hvis⟩
        exact ⟨i, (loopP_pres_vis_false rest _ _ (applyTaskP_wf p s t0 hwf) hfin _ i
          hlk hvis).1,
          (loopP_pres_vis_false rest _ _ (applyTaskP_wf p s t0 hwf) hfin _ i hlk hvis).2⟩
      · exact ih _ _ (applyTaskP_wf p s t0 hwf) hfin t h

theorem applyTaskP_pres_ct (p : Pbar) (s : List (String × ℕ)) (t : SubUpdate)
    (hwf : WFState p s) (nm : String) (i : ℕ)
    (hlk : lookupSub s nm = some i) (hne : nameStr t.name ≠ nm) :
    lookupSub (applyTaskP p s t).2 nm = some i ∧
      (applyTaskP p s t).1.completedOf i = p.completedOf i ∧
      (applyTaskP p s t).1.totalOf i = p.totalOf i := by
  obtain ⟨h1, h2, h3, h4, h5⟩ := hwf
  cases hf : s.find? (fun kv => kv.1 == nameStr t.name) with
  | some kv =>
      rw [applyTaskP_found p s t kv hf]
      have hlk2 : lookupSub s (nameStr t.name) = some kv.2 := by
        rw [lookupSub, hf]
        rfl
      have hki : kv.2 ≠ i := lookupSub_ne_of_keys s (nameStr t.name) nm kv.2 i h2 hlk2 hlk hne
      exact ⟨hlk, completedOf_updateTask_ne _ _ _ _ _ _ _ (fun hc => hki hc.symm),
        totalOf_updateTask_ne _ _ _ _ _ _ _ (fun hc => hki hc.symm)⟩
  | none =>
      rw [applyTaskP_new p s t hf]
      have hilt : i < p.nextId := by
        rcases lookupSub_mem s nm i hlk with ⟨kv, hm, -, hsnd⟩
        rw [← hsnd]
        exact h3 _ (List.mem_map_of_mem _ hm)
      have hine : i ≠ p.nextId := Nat.ne_of_lt hilt
      refine ⟨lookupSub_append_left s _ nm (lookupSub_key_mem s nm i hlk) ▸ hlk, ?_, ?_⟩
      · rw [completedOf_updateTask_ne _ _ _ _ _ _ _ hine,
          addTask_completedOf_ne _ _ _ _ _ hine]
      · rw [totalOf_updateTask_ne _ _ _ _ _ _ _ hine, addTask_totalOf_ne _ _ _ _ _ hine]

theorem loopP_pres_ct (ts : List SubUpdate) (p : Pbar) (s : List (String × ℕ))
    (hwf : WFState p s) (nm : String) (i : ℕ)
    (hlk : lookupSub s nm = some i) (hne : ∀ t ∈ ts, nameStr t.name ≠ nm) :
    lookupSub (loopP p s ts).2 nm = some i ∧
      (loopP p s ts).1.completedOf i = p.completedOf i ∧
      (loopP p s ts).1.totalOf i = p.totalOf i := by
  induction ts generalizing p s with
  | nil => exact ⟨hlk, rfl, rfl⟩
  | cons t rest ih =>
      rw [loopP]
      have hstep := applyTaskP_pres_ct p s t hwf nm i hlk (hne t (List.mem_cons_self _ _))
      have hih := ih (applyTaskP p s t).1 (applyTaskP p s t).2 (applyTaskP_wf p s t hwf)
        hstep.1 (fun t' ht' => hne t' (List.mem_cons_of_mem _ ht'))
      exact ⟨hih.1, by rw [hih.2.1, hstep.2.1], by rw [hih.2.2, hstep.2.2]⟩

theorem applyTaskP_sets_ct (p : Pbar) (s : List (String × ℕ)) (t : SubUpdate)
    (hwf : WFState p s) :
    ∃ i, lookupSub (applyTaskP p s t).2 (nameStr t.name) = some i ∧
      (applyTaskP p s t).1.completedOf i = some t.sent ∧
      (applyTaskP p s t).1.totalOf i = some t.total := by
  obtain ⟨h1, h2, h3, h4, h5⟩ := hwf
  cases hf : s.find? (fun kv => kv.1 == nameStr t.name) with
  | some kv =>
      rw [applyTaskP_found p s t kv hf]
      refine ⟨kv.2, by rw [lookupSub, hf]; rfl, ?_, ?_⟩
      · rcases completedOf_of_exists p kv.2
            (h4 _ (List.mem_map_of_mem _ (List.mem_of_find?_eq_some hf))) with ⟨w, hw⟩
        exact completedOf_updateTask_self _ _ _ _ _ _ w hw
      · rcases totalOf_of_exists p kv.2
            (h4 _ (List.mem_map_of_mem _ (List.mem_of_find?_eq_some hf))) with ⟨w, hw⟩
        exact totalOf_updateTask_self _ _ _ _ _ _ w hw
  | none =>
      rw [applyTaskP_new p s t hf]
      refine ⟨p.nextId, ?_, ?_, ?_⟩
      · rw [lookupSub, List.find?_append, hf]
        simp [List.find?_cons]
      · exact completedOf_updateTask_self _ _ _ _ _ _ (.num 0)
          (addTask_completedOf_new p _ _ _ h5)
      · exact totalOf_updateTask_self _ _ _ _ _ _ (Json.num 100)
          (addTask_totalOf_new p _ _ _ h5)

theorem loopP_sets_ct (ts : List SubUpdate) (p : Pbar) (s : List (String × ℕ))
    (hwf : WFState p s) (hnodup : (ts.map (fun t => nameStr t.name)).Nodup) :
    ∀ t ∈ ts, ∃ i, lookupSub (loopP p s ts).2 (nameStr t.name) = some i ∧
      (loopP p s ts).1.completedOf i = some t.sent ∧
      (loopP p s ts).1.totalOf i = some t.total := by
  induction ts generalizing p s with
  | nil => intro t ht; simp at ht
  | cons t0 rest ih =>
      intro t ht
      rw [loopP]
      rw [List.map_cons, List.nodup_cons] at hnodup
      rcases List.mem_cons.mp ht with h | h
      · rw [h]
        rcases applyTaskP_sets_ct p s t0 hwf with ⟨i, hlk, hc, hterm⟩
        have hne : ∀ t' ∈ rest, nameStr t'.name ≠ nameStr t0.name := by
          intro t' ht' hc'
          exact hnodup.1 (hc' ▸ List.mem_map_of_mem _ ht')
        have hp := loopP_pres_ct rest _ _ (applyTaskP_wf p s t0 hwf) _ i hlk hne
        exact ⟨i, hp.1, by rw [hp.2.1, hc], by rw [hp.2.2, hterm]⟩
      · exact ih _ _ (applyTaskP_wf p s t0 hwf) hnodup.2 t h

theorem loopP_outside (ts : List SubUpdate) (p : Pbar) (s : List (String × ℕ)) (i : ℕ)
    (hout : i ∉ s.map Prod.snd) (hlt : i < p.nextId) :
    (loopP p s ts).1.completedOf i = p.completedOf i ∧
      (loopP p s ts).1.totalOf i = p.totalOf i ∧
      i ∉ (loopP p s ts).2.map Prod.snd ∧ i < (loopP p s ts).1.nextId := by
  induction ts generalizing p s with
  | nil => exact ⟨rfl, rfl, hout, hlt⟩
  | cons t rest ih =>
      rw [loopP]
      cases hf : s.find? (fun kv => kv.1 == nameStr t.name) with
      | some kv =>
          have hki : kv.2 ≠ i := by
            intro hc
            exact hout (hc ▸ List.mem_map_of_mem _ (List.mem_of_find?_eq_some hf))
          have hih := ih (applyTaskP p s t).1 (applyTaskP p s t).2
          rw [applyTaskP_found p s t kv hf] at hih ⊢
          rcases hih hout hlt with ⟨a, b, c, d⟩
          refine ⟨?_, ?_, c, d⟩
          · rw [a]
            exact completedOf_updateTask_ne _ _ _ _ _ _ _ (fun hc => hki hc.symm)
          · rw [b]
            exact totalOf_updateTask_ne _ _ _ _ _ _ _ (fun hc => hki hc.symm)
      | none =>
          have hine : i ≠ p.nextId := Nat.ne_of_lt hlt
          have hih := ih (applyTaskP p s t).1 (applyTaskP p s t).2
          rw [applyTaskP_new p s t hf] at hih ⊢
          have hout2 : i ∉ ((s ++ [(nameStr t.name, p.nextId)]).map Prod.snd) := by
            rw [List.map_append]
            intro hmem
            rcases List.mem_append.mp hmem with h | h
            · exact hout h
            · simp at h
              exact hine h
          rcases hih hout2 (Nat.lt_succ_of_lt hlt) with ⟨a, b, c, d⟩
          refine ⟨?_, ?_, c, d⟩
          · rw [a, completedOf_updateTask_ne _ _ _ _ _ _ _ hine,
              addTask_completedOf_ne _ _ _ _ _ hine]
          · rw [b, totalOf_updateTask_ne _ _ _ _ _ _ _ hine,
              addTask_totalOf_ne _ _ _ _ _ hine]

theorem hideMissingP_completedOf (s : List (String × ℕ)) (p : Pbar) (ms : List String)
    (j : ℕ) : (hideMissingP s p ms).completedOf j = p.completedOf j := by
  induction ms generalizing p with
  | nil => rfl
  | cons m rest ih =>
      rw [hideMissingP]
      cases hf : s.find? (fun kv => kv.1 == m) with
      | none => exact ih p
      | some kv => rw [ih, completedOf_updateTask_cnone]

theorem hideMissingP_totalOf (s : List (String × ℕ)) (p : Pbar) (ms : List String)
    (j : ℕ) : (hideMissingP s p ms).totalOf j = p.totalOf j := by
  induction ms generalizing p with
  | nil => rfl
  | cons m rest ih =>
      rw [hideMissingP]
      cases hf : s.find? (fun kv => kv.1 == m) with
      | none => exact ih p
      | some kv => rw [ih, totalOf_updateTask_tnone]

theorem hideMissingP_nextId (s : List (String × ℕ)) (p : Pbar) (ms : List String) :
    (hideMissingP s p ms).nextId = p.nextId := by
  induction ms generalizing p with
  | nil => rfl
  | cons m rest ih =>
      rw [hideMissingP]
      cases hf : s.find? (fun kv => kv.1 == m) with
      | none => exact ih p
      | some kv => rw [ih, updateTask_nextId]

theorem hideMissingP_exists_id (s : List (String × ℕ)) (p : Pbar) (ms : List String)
    (j : ℕ) (h : ∃ tk ∈ p.tasks, tk.id = j) :
    ∃ tk ∈ (hideMissingP s p ms).tasks, tk.id = j := by
  induction ms generalizing p with
  | nil => exact h
  | cons m rest ih =>
      rw [hideMissingP]
      cases hf : s.find? (fun kv => kv.1 == m) with
      | none => exact ih p h
      | some kv => exact ih _ (exists_id_updateTask _ _ _ _ _ _ _ h)

theorem hideMissingP_tasksLt (s : List (String × ℕ)) (p : Pbar) (ms : List String)
    (n : ℕ) (h : ∀ tk ∈ p.tasks, tk.id < n) :
    ∀ tk ∈ (hideMissingP s p ms).tasks, tk.id < n := by
  induction ms generalizing p with
  | nil => exact h
  | cons m rest ih =>
      rw [hideMissingP]
      cases hf : s.find? (fun kv => kv.1 == m) with
      | none => exact ih p h
      | some kv => exact ih _ (tasksLt_updateTask _ _ _ _ _ _ _ h)

theorem hideMissingP_pres_false (s : List (String × ℕ)) (p : Pbar) (ms : List String)
    (i : ℕ) (h : p.visibleOf i = some false) :
    (hideMissingP s p ms).visibleOf i = some false := by
  induction ms generalizing p with
  | nil => exact h
  | cons m rest ih =>
      rw [hideMissingP]
      cases hf : s.find? (fun kv => kv.1 == m) with
      | none => exact ih p h
      | some kv =>
          apply ih
          by_cases hki : kv.2 = i
          · rw [hki]
            exact visibleOf_updateTask_self _ _ _ _ _ _ false h
          · rw [visibleOf_updateTask_ne _ _ _ _ _ _ _ (fun hc => hki hc.symm)]
            exact h

theorem hideMissingP_isSome (s : List (String × ℕ)) (ms : List String) :
    ∀ (p : Pbar) (i : ℕ) (b : Bool), p.visibleOf i = some b →
      ∃ b', (hideMissingP s p ms).visibleOf i = some b' := by
  induction ms with
  | nil => exact fun p i b h => ⟨b, h⟩
  | cons m rest ih =>
      intro p i b h
      rw [hideMissingP]
      cases hf : s.find? (fun kv => kv.1 == m) with
      | none => exact ih p i b h
      | some kv =>
          by_cases hki : kv.2 = i
          · subst hki
            exact ih _ _ false (visibleOf_updateTask_self _ _ _ _ _ _ b h)
          · exact ih _ _ b
              ((visibleOf_updateTask_ne _ _ _ _ _ _ _ (fun hc => hki hc.symm)).symm ▸ h)

theorem hideMissingP_sets_false (s : List (String × ℕ)) (ms : List String) :
    ∀ (p : Pbar) (k : String) (kv : String × ℕ) (b : Bool), k ∈ ms →
      s.find? (fun e => e.1 == k) = some kv → p.visibleOf kv.2 = some b →
      (hideMissingP s p ms).visibleOf kv.2 = some false := by
  induction ms with
  | nil => intro p k kv b hk; simp at hk
  | cons m rest ih =>
      intro p k kv b hk hf hex
      rw [hideMissingP]
      by_cases hm : m = k
      · subst hm
        rw [hf]
        have hset : (p.updateTask kv.2 none none none (some false)).visibleOf kv.2 =
            some false := visibleOf_updateTask_self _ _ _ _ _ _ b hex
        exact hideMissingP_pres_false s _ rest kv.2 hset
      · have hk' : k ∈ rest := by
          rcases List.mem_cons.mp hk with h | h
          · exact absurd h.symm hm
          · exact h
        cases hf2 : s.find? (fun e => e.1 == m) with
        | none => exact ih p k kv b hk' hf hex
        | some kv2 =>
            by_cases hki : kv2.2 = kv.2
            · refine ih _ k kv false hk' hf ?_
              rw [← hki]
              exact hki ▸ visibleOf_updateTask_self _ _ _ _ _ _ b hex
            · exact ih _ k kv b hk' hf
                ((visibleOf_updateTask_ne _ _ _ _ _ _ _ (fun hc => hki hc.symm)).symm ▸ hex)

theorem hideMissingP_pres_other (s : List (String × ℕ)) (p : Pbar) (ms : List String)
    (i : ℕ) (hmiss : ∀ m ∈ ms, ∀ kv, s.find? (fun e => e.1 == m) = some kv → kv.2 ≠ i) :
    (hideMissingP s p ms).visibleOf i = p.visibleOf i := by
  induction ms generalizing p with
  | nil => rfl
  | cons m rest ih =>
      rw [hideMissingP]
      cases hf : s.find? (fun e => e.1 == m) with
      | none => exact ih p (fun m' hm' => hmiss m' (List.mem_cons_of_mem _ hm'))
      | some kv =>
          rw [ih _ (fun m' hm' => hmiss m' (List.mem_cons_of_mem _ hm'))]
          exact visibleOf_updateTask_ne _ _ _ _ _ _ _
            (fun hc => hmiss m (List.mem_cons_self _ _) kv hf hc.symm)

theorem mem_missingP (s : List (String × ℕ)) (names : List String) (k : String) :
    k ∈ missingP s names ↔ k ∈ s.map Prod.fst ∧ names.contains k = false := by
  rw [missingP]
  rw [(List.perm_insertionSort (fun a b => a ≤ b) _).mem_iff]
  rw [List.mem_filter]
  simp

theorem aggStep_wf (p : Pbar) (ss : List (String × ℕ)) (tid : ℕ) (c t : Option Json)
    (hwf : WFState p ss) : WFState (p.updateTask tid none c t none) ss := by
  obtain ⟨h1, h2, h3, h4, h5⟩ := hwf
  refine ⟨h1, h2, ?_, ?_, ?_⟩
  · intro i hi
    rw [updateTask_nextId]
    exact h3 i hi
  · intro i hi
    exact exists_id_updateTask _ _ _ _ _ _ _ (h4 i hi)
  · intro tk htk
    rw [updateTask_nextId]
    exact tasksLt_updateTask _ _ _ _ _ _ _ h5 tk htk

theorem update_tasksP_subs (p : Pbar) (tid : ℕ) (u : Update) (ss : List (String × ℕ)) :
    (update_tasksP p tid u ss).2 =
      (loopP (p.updateTask tid none (some u.sent) (some u.total) none) ss u.tasks).2 := rfl

theorem update_tasksP_wf (p : Pbar) (tid : ℕ) (u : Update) (ss : List (String × ℕ))
    (hwf : WFState p ss) :
    WFState (update_tasksP p tid u ss).1 (update_tasksP p tid u ss).2 := by
  have hwf1 := loopP_wf u.tasks _ ss (aggStep_wf p ss tid (some u.sent) (some u.total) hwf)
  obtain ⟨h1, h2, h3, h4, h5⟩ := hwf1
  rw [update_tasksP]
  refine ⟨h1, h2, ?_, ?_, ?_⟩
  · intro i hi
    rw [tailMarker_nextId, hideMissingP_nextId]
    exact h3 i hi
  · intro i hi
    exact exists_id_tailMarker _ _ (hideMissingP_exists_id _ _ _ _ (h4 i hi))
  · intro tk htk
    rw [tailMarker_nextId, hideMissingP_nextId]
    exact tasksLt_tailMarker _ _ (hideMissingP_tasksLt _ _ _ _ h5) tk htk

theorem update_tasksP_lookup_pres (p : Pbar) (tid : ℕ) (u : Update)
    (ss : List (String × ℕ)) (n : String) (h : n ∈ ss.map Prod.fst) :
    lookupSub (update_tasksP p tid u ss).2 n = lookupSub ss n := by
  rw [update_tasksP_subs]
  exact loopP_lookup_pres u.tasks _ ss n h

theorem not_contains_of_not_mem (l : List String) (k : String) (h : k ∉ l) :
    l.contains k = false := by
  rw [← Bool.not_eq_true]
  intro hc
  exact h (List.elem_iff.mp hc)

theorem update_tasksP_vis_of_missing (p : Pbar) (tid : ℕ) (u : Update)
    (ss : List (String × ℕ)) (hwf : WFState p ss) (kv : String × ℕ)
    (hmem : kv ∈ (update_tasksP p tid u ss).2)
    (habs : kv.1 ∉ u.tasks.map (fun t => nameStr t.name)) :
    (update_tasksP p tid u ss).1.visibleOf kv.2 = some false := by
  have hwf0 := aggStep_wf p ss tid (some u.sent) (some u.total) hwf
  have hwf1 := loopP_wf u.tasks _ ss hwf0
  rw [update_tasksP_subs] at hmem
  rw [update_tasksP, tailMarker_visibleOf]
  obtain ⟨g1, g2, g3, g4, g5⟩ := hwf1
  have hfind := find?_eq_of_mem_nodup _ kv g1 hmem
  have hmiss : kv.1 ∈ missingP
      (loopP (p.updateTask tid none (some u.sent) (some u.total) none) ss u.tasks).2
      (u.tasks.map (fun t => nameStr t.name)) := by
    rw [mem_missingP]
    exact ⟨List.mem_map_of_mem _ hmem, not_contains_of_not_mem _ _ habs⟩
  rcases visibleOf_of_exists _ kv.2 (g4 _ (List.mem_map_of_mem _ hmem)) with ⟨b, hb⟩
  exact hideMissingP_sets_false _ _ _ kv.1 kv b hmiss hfind hb

theorem update_tasksP_vis_small (p : Pbar) (tid : ℕ) (u : Update)
    (ss : List (String × ℕ)) (hwf : WFState p ss)
    (hlen : (update_tasksP p tid u ss).2.length ≤ 1) (kv : String × ℕ)
    (hmem : kv ∈ (update_tasksP p tid u ss).2) :
    (update_tasksP p tid u ss).1.visibleOf kv.2 = some false := by
  by_cases habs : kv.1 ∈ u.tasks.map (fun t => nameStr t.name)
  · -- the name was written by the loop with `len > 1` false, and only false
    -- is written afterwards
    have hwf0 := aggStep_wf p ss tid (some u.sent) (some u.total) hwf
    have hwf1 := loopP_wf u.tasks _ ss hwf0
    rcases List.mem_map.mp habs with ⟨t, ht, hname⟩
    rw [update_tasksP_subs] at hmem hlen
    rcases loopP_vis_false u.tasks _ ss hwf0 hlen t ht with ⟨i, hlk, hvis⟩
    have hieq : i = kv.2 := by
      obtain ⟨g1, g2, g3, g4, g5⟩ := hwf1
      have hfind := find?_eq_of_mem_nodup _ kv g1 hmem
      rw [hname] at hlk
      rw [lookupSub, hfind] at hlk
      simpa using hlk.symm
    rw [update_tasksP, tailMarker_visibleOf, ← hieq]
    exact hideMissingP_pres_false _ _ _ i hvis
  · exact update_tasksP_vis_of_missing p tid u ss hwf kv
      (by rw [update_tasksP_subs] at hmem ⊢; exact hmem) habs

theorem update_tasksP_vis_present (p : Pbar) (tid : ℕ) (u : Update)
    (ss : List (String × ℕ)) (hwf : WFState p ss) (hlen : 1 < ss.length)
    (t : SubUpdate) (ht : t ∈ u.tasks) :
    ∃ i, lookupSub (update_tasksP p tid u ss).2 (nameStr t.name) = some i ∧
      (update_tasksP p tid u ss).1.visibleOf i = some true := by
  have hwf0 := aggStep_wf p ss tid (some u.sent) (some u.total) hwf
  have hwf1 := loopP_wf u.tasks _ ss hwf0
  rcases loopP_vis_true u.tasks _ ss hwf0 hlen t ht with ⟨i, hlk, hvis⟩
  refine ⟨i, by rw [update_tasksP_subs]; exact hlk, ?_⟩
  obtain ⟨g1, g2, g3, g4, g5⟩ := hwf1
  have hside : ∀ m ∈ missingP
      (loopP (p.updateTask tid none (some u.sent) (some u.total) none) ss u.tasks).2
      (u.tasks.map (fun t => nameStr t.name)), ∀ kv,
      (loopP (p.updateTask tid none (some u.sent) (some u.total) none) ss u.tasks).2.find?
        (fun e => e.1 == m) = some kv → kv.2 ≠ i := by
    intro m hm kv hf hki
    rw [mem_missingP] at hm
    have hlkm : lookupSub
        (loopP (p.updateTask tid none (some u.sent) (some u.total) none) ss u.tasks).2 m =
        some kv.2 := by
      rw [lookupSub, hf]
      rfl
    have hmne : m ≠ nameStr t.name := by
      intro hc
      rw [← Bool.not_eq_true] at hm
      apply hm.2
      rw [List.contains_eq_any_beq]
      apply List.any_eq_true.mpr
      exact ⟨nameStr t.name, List.mem_map_of_mem _ ht, by simp [hc]⟩
    exact lookupSub_ne_of_keys _ m (nameStr t.name) kv.2 i g2 hlkm hlk hmne hki
  rw [update_tasksP, tailMarker_visibleOf, hideMissingP_pres_other _ _ _ i hside]
  exact hvis

theorem loopP_exists_id (ts : List SubUpdate) (p : Pbar) (s : List (String × ℕ)) (j : ℕ)
    (h : ∃ tk ∈ p.tasks, tk.id = j) : ∃ tk ∈ (loopP p s ts).1.tasks, tk.id = j := by
  induction ts generalizing p s with
  | nil => exact h
  | cons t rest ih =>
      rw [loopP]
      apply ih
      cases hf : s.find? (fun kv => kv.1 == nameStr t.name) with
      | some kv =>
          rw [applyTaskP_found p s t kv hf]
          exact exists_id_updateTask _ _ _ _ _ _ _ h
      | none =>
          rw [applyTaskP_new p s t hf]
          exact exists_id_updateTask _ _ _ _ _ _ _ (exists_id_addTask _ _ _ _ _ h)

theorem update_tasksP_aggregate (p : Pbar) (tid : ℕ) (u : Update)
    (ss : List (String × ℕ)) (hfull : WFFull p ss tid) :
    (update_tasksP p tid u ss).1.completedOf tid = some u.sent ∧
      (update_tasksP p tid u ss).1.totalOf tid = some u.total := by
  obtain ⟨hwf, htid, hex, hlt⟩ := hfull
  have hagg : (p.updateTask tid none (some u.sent) (some u.total) none).completedOf tid =
      some u.sent := by
    rcases completedOf_of_exists p tid hex with ⟨w, hw⟩
    exact completedOf_updateTask_self _ _ _ _ _ _ w hw
  have hagg2 : (p.updateTask tid none (some u.sent) (some u.total) none).totalOf tid =
      some u.total := by
    rcases totalOf_of_exists p tid hex with ⟨w, hw⟩
    exact totalOf_updateTask_self _ _ _ _ _ _ w hw
  have hout := loopP_outside u.tasks (p.updateTask tid none (some u.sent) (some u.total) none)
    ss tid htid hlt
  rw [update_tasksP]
  constructor
  · rw [tailMarker_completedOf, hideMissingP_completedOf, hout.1, hagg]
  · rw [tailMarker_totalOf, hideMissingP_totalOf, hout.2.1, hagg2]

theorem update_tasksP_sets_ct (p : Pbar) (tid : ℕ) (u : Update)
    (ss : List (String × ℕ)) (hwf : WFState p ss)
    (hnodup : (u.tasks.map (fun t => nameStr t.name)).Nodup) :
    ∀ t ∈ u.tasks, ∃ i, lookupSub (update_tasksP p tid u ss).2 (nameStr t.name) = some i ∧
      (update_tasksP p tid u ss).1.completedOf i = some t.sent ∧
      (update_tasksP p tid u ss).1.totalOf i = some t.total := by
  intro t ht
  have hwf0 := aggStep_wf p ss tid (some u.sent) (some u.total) hwf
  rcases loopP_sets_ct u.tasks _ ss hwf0 hnodup t ht with ⟨i, hlk, hc, hterm⟩
  refine ⟨i, by rw [update_tasksP_subs]; exact hlk, ?_, ?_⟩
  · rw [update_tasksP, tailMarker_completedOf, hideMissingP_completedOf]
    exact hc
  · rw [update_tasksP, tailMarker_totalOf, hideMissingP_totalOf]
    exact hterm

theorem update_tasksP_wffull (p : Pbar) (tid : ℕ) (u : Update)
    (ss : List (String × ℕ)) (hfull : WFFull p ss tid) :
    WFFull (update_tasksP p tid u ss).1 (update_tasksP p tid u ss).2 tid := by
  obtain ⟨hwf, htid, hex, hlt⟩ := hfull
  have hout := loopP_outside u.tasks (p.updateTask tid none (some u.sent) (some u.total) none)
    ss tid htid hlt
  refine ⟨update_tasksP_wf p tid u ss hwf, ?_, ?_, ?_⟩
  · rw [update_tasksP_subs]
    exact hout.2.2.1
  · rw [update_tasksP]
    exact exists_id_tailMarker _ _ (hideMissingP_exists_id _ _ _ _
      (loopP_exists_id u.tasks _ ss tid
        (exists_id_updateTask _ _ _ _ _ _ _ hex)))
  · rw [update_tasksP, tailMarker_nextId, hideMissingP_nextId]
    exact hout.2.2.2

theorem loopP_subs_found (ts : List SubUpdate) (p : Pbar) (s : List (String × ℕ))
    (h : ∀ t ∈ ts, nameStr t.name ∈ s.map Prod.fst) : (loopP p s ts).2 = s := by
  induction ts generalizing p s with
  | nil => rfl
  | cons t rest ih =>
      rw [loopP]
      have hmem := h t (List.mem_cons_self _ _)
      rcases List.mem_map.mp hmem with ⟨kv0, hkv0, hfst⟩
      cases hf : s.find? (fun kv => kv.1 == nameStr t.name) with
      | none => exact absurd (List.find?_eq_none.mp hf kv0 hkv0) (by simp [hfst])
      | some kv =>
          rw [applyTaskP_found p s t kv hf]
          exact ih _ s (fun t' ht' => h t' (List.mem_cons_of_mem _ ht'))

theorem update_tasksP_names_mem (p : Pbar) (tid : ℕ) (u : Update)
    (ss : List (String × ℕ)) :
    ∀ t ∈ u.tasks, nameStr t.name ∈ (update_tasksP p tid u ss).2.map Prod.fst := by
  intro t ht
  rw [update_tasksP_subs]
  exact loopP_names_mem u.tasks _ ss t ht

theorem update_tasksP_subs_found (p : Pbar) (tid : ℕ) (u : Update)
    (ss : List (String × ℕ)) (h : ∀ t ∈ u.tasks, nameStr t.name ∈ ss.map Prod.fst) :
    (update_tasksP p tid u ss).2 = ss := by
  rw [update_tasksP_subs]
  exact loopP_subs_found u.tasks _ ss h

theorem any_map_h {α β : Type _} (f : α → β) (l : List α) (p : β → Bool) :
    (l.map f).any p = l.any (fun a => p (f a)) := by
  induction l with
  | nil => rfl
  | cons a rest ih => simp [ih]

theorem all_map_h {α β : Type _} (f : α → β) (l : List α) (p : β → Bool) :
    (l.map f).all p = l.all (fun a => p (f a)) := by
  induction l with
  | nil => rfl
  | cons a rest ih => simp [ih]

theorem contains_of_mem (l : List String) (k : String) (h : k ∈ l) :
    l.contains k = true := by
  rw [List.contains_eq_any_beq]
  exact List.any_eq_true.mpr ⟨k, h, by simp⟩

theorem any_beq_comm (l : List String) (k : String) :
    (l.any fun a => a == k) = l.contains k := by
  induction l with
  | nil => rfl
  | cons a rest ih =>
      rw [List.any_cons, ih, List.contains_cons, Bool.beq_comm]

theorem pyKeyEq_str (a b : String) : pyKeyEq (.str a) (.str b) = (a == b) := rfl

theorem jsonFStr_str (s : String) : jsonFStr (.str s) = s := rfl

theorem nameStr_str (s : String) : nameStr (.str s) = s := rfl

theorem pySetAdd_str (cs : List String) (nm : String) :
    pySetAdd (liftStrs cs) (.str nm) = .ok (liftStrs (setAddStr cs nm)) := by
  rw [pySetAdd, setAddStr]
  simp only [pyHashable, if_true, liftStrs]
  rw [any_map_h]
  simp only [pyKeyEq_str, any_beq_comm]
  by_cases h : nm ∈ cs
  · simp [contains_of_mem cs nm h, h]
  · simp [not_contains_of_not_mem cs nm h, h]

theorem pySetMem_str (cs : List String) (k : String) :
    pySetMem (liftStrs cs) (.str k) = .ok (cs.contains k) := by
  rw [pySetMem, liftStrs]
  simp only [pyHashable, if_true]
  rw [any_map_h]
  simp only [pyKeyEq_str, any_beq_comm]

theorem pyDictLookup_str (ss : List (String × ℕ)) (nm : String) :
    pyDictLookup (liftSubs ss) (.str nm) = .ok (lookupSub ss nm) := by
  rw [pyDictLookup, liftSubs, lookupSub]
  simp only [pyHashable, if_true]
  rw [List.find?_map, Option.map_map]
  have hp : ((fun kv : Json × ℕ => pyKeyEq kv.1 (.str nm)) ∘
      (fun kv : String × ℕ => (Json.str kv.1, kv.2))) = (fun kv => kv.1 == nm) := by
    funext kv
    simp [Function.comp, pyKeyEq_str]
  rw [hp]
  rfl

theorem pySetDiff_str (ks cs : List String) :
    pySetDiff (liftStrs ks) (liftStrs cs) =
      .ok (liftStrs (ks.filter (fun k => !(cs.contains k)))) := by
  induction ks with
  | nil => rfl
  | cons k rest ih =>
      rw [liftStrs, List.map_cons, pySetDiff]
      rw [show (List.map Json.str rest) = liftStrs rest from rfl, ih, pySetMem_str]
      simp only [Except.ok_bind, List.filter_cons]
      by_cases h : k ∈ cs
      · simp [contains_of_mem cs k h, h]
      · simp [not_contains_of_not_mem cs k h, h, liftStrs]

theorem pySorted_str (l : List String) :
    pySorted (liftStrs l) =
      .ok (liftStrs (List.insertionSort (fun a b => a ≤ b) l)) := by
  rw [pySorted]
  have hall : (liftStrs l).all isStrB = true := by
    rw [liftStrs, all_map_h]
    simp [isStrB]
  rw [if_pos hall]
  have hmap : (liftStrs l).map nameStr = l := by
    rw [liftStrs, List.map_map]
    have : (nameStr ∘ Json.str) = id := by
      funext x
      rfl
    rw [this, List.map_id]
  rw [hmap]
  rfl

theorem pyDictIndex_str (ss : List (String × ℕ)) (k : String) :
    pyDictIndex (liftSubs ss) (.str k) =
      match lookupSub ss k with
      | some v => .ok v
      | none => .error .keyError := by
  rw [pyDictIndex, pyDictLookup_str]
  cases lookupSub ss k <;> rfl

theorem lookupSub_eq_some_of_find? (ss : List (String × ℕ)) (nm : String)
    (kv : String × ℕ) (hf : ss.find? (fun kv => kv.1 == nm) = some kv) :
    lookupSub ss nm = some kv.2 := by
  rw [lookupSub, hf]
  rfl

theorem lookupSub_eq_none_of_find? (ss : List (String × ℕ)) (nm : String)
    (hf : ss.find? (fun kv => kv.1 == nm) = none) : lookupSub ss nm = none := by
  rw [lookupSub, hf]
  rfl

theorem updateTasksLoop_bridge (ts : List SubUpdate) (p : Pbar) (ss : List (String × ℕ))
    (cs : List String) (hn : ∀ t ∈ ts, isStrB t.name = true) :
    updateTasksLoop p (liftSubs ss) (liftStrs cs) ts =
      .ok ((loopP p ss ts).1, liftSubs (loopP p ss ts).2, liftStrs (loopNames cs ts)) := by
  induction ts generalizing p ss cs with
  | nil => rfl
  | cons t rest ih =>
      have ht := hn t (List.mem_cons_self _ _)
      have hname : t.name = Json.str (nameStr t.name) := by
        cases hj : t.name
        case str s => rfl
        all_goals rw [hj] at ht
        all_goals simp [isStrB] at ht
      rw [updateTasksLoop, loopP]
      rw [hname, pySetAdd_str, pyDictLookup_str]
      simp only [Except.ok_bind]
      have hnames : loopNames cs (t :: rest) = loopNames (setAddStr cs (nameStr t.name)) rest :=
        rfl
      rw [hnames]
      cases hf : ss.find? (fun kv => kv.1 == nameStr t.name) with
      | some kv =>
          rw [lookupSub_eq_some_of_find? ss _ kv hf, applyTaskP_found p ss t kv hf]
          have hlen : (liftSubs ss).length = ss.length := by
            rw [liftSubs, List.length_map]
          rw [hlen]
          rw [show jsonFStr (Json.str (nameStr t.name)) = nameStr t.name from rfl]
          exact ih _ _ _ (fun t' ht' => hn t' (List.mem_cons_of_mem _ ht'))
      | none =>
          rw [lookupSub_eq_none_of_find? ss _ hf, applyTaskP_new p ss t hf]
          have hsubs : liftSubs ss ++ [(Json.str (nameStr t.name), p.nextId)] =
              liftSubs (ss ++ [(nameStr t.name, p.nextId)]) := by
            rw [liftSubs, liftSubs, List.map_append]
            rfl
          have hlen : (liftSubs ss ++ [(Json.str (nameStr t.name), p.nextId)]).length =
              (ss ++ [(nameStr t.name, p.nextId)]).length := by
            rw [hsubs, liftSubs, List.length_map]
          rw [show jsonFStr (Json.str (nameStr t.name)) = nameStr t.name from rfl]
          rw [show (p.addTask " " (Json.num 100) false) =
            ((p.addTask " " (Json.num 100) false).1, p.nextId) from rfl]
          rw [hlen, hsubs]
          exact ih _ _ _ (fun t' ht' => hn t' (List.mem_cons_of_mem _ ht'))

theorem hideMissingLoop_bridge (ms : List String) (ss : List (String × ℕ)) (p : Pbar)
    (hsub : ∀ k ∈ ms, k ∈ ss.map Prod.fst) :
    hideMissingLoop (liftSubs ss) p (liftStrs ms) = .ok (hideMissingP ss p ms) := by
  induction ms generalizing p with
  | nil => rfl
  | cons m rest ih =>
      show hideMissingLoop (liftSubs ss) p (Json.str m :: liftStrs rest) = _
      rw [hideMissingLoop, pyDictIndex_str, hideMissingP]
      cases hf : ss.find? (fun kv => kv.1 == m) with
      | none =>
          rcases List.mem_map.mp (hsub m (List.mem_cons_self _ _)) with ⟨kv, hkv, hfst⟩
          exact absurd (List.find?_eq_none.mp hf kv hkv) (by simp [hfst])
      | some kv =>
          rw [lookupSub_eq_some_of_find? ss _ kv hf]
          simp only [Except.ok_bind]
          exact ih _ (fun k hk => hsub k (List.mem_cons_of_mem _ hk))

theorem liftSubs_keys (ss : List (String × ℕ)) :
    (liftSubs ss).map Prod.fst = liftStrs (ss.map Prod.fst) := by
  rw [liftSubs, liftStrs, List.map_map, List.map_map]
  rfl

theorem setAddStr_contains (cs : List String) (nm k : String) :
    (setAddStr cs nm).contains k = (cs.contains k || k == nm) := by
  rw [setAddStr]
  by_cases h : cs.contains nm
  · rw [if_pos h]
    by_cases hk : k = nm
    · subst hk
      rw [h]
      simp
    · simp [hk]
  · rw [if_neg h]
    rw [List.contains_eq_any_beq, List.any_append, ← List.contains_eq_any_beq]
    simp

theorem loopNames_contains (ts : List SubUpdate) (cs : List String) (k : String) :
    (loopNames cs ts).contains k =
      (cs.contains k || (ts.map (fun t => nameStr t.name)).contains k) := by
  induction ts generalizing cs with
  | nil => simp [loopNames]
  | cons t rest ih =>
      show (loopNames (setAddStr cs (nameStr t.name)) rest).contains k = _
      rw [ih, setAddStr_contains, List.map_cons, List.contains_cons]
      rw [Bool.or_assoc, Bool.or_comm (k == nameStr t.name)]

theorem update_tasks_bridge (p : Pbar) (tid : ℕ) (u : Update) (ss : List (String × ℕ))
    (hn : ∀ t ∈ u.tasks, isStrB t.name = true) :
    update_tasks p tid u (liftSubs ss) =
      .ok ((update_tasksP p tid u ss).1, liftSubs (update_tasksP p tid u ss).2) := by
  rw [update_tasks, update_tasksP]
  have hb := updateTasksLoop_bridge u.tasks
    (p.updateTask tid none (some u.sent) (some u.total) none) ss [] hn
  rw [show liftStrs [] = ([] : List Json) from rfl] at hb
  rw [hb]
  simp only [Except.ok_bind]
  rw [liftSubs_keys]
  have hfilter :
      (((loopP (p.updateTask tid none (some u.sent) (some u.total) none) ss u.tasks).2.map
          Prod.fst).filter (fun k => !((loopNames [] u.tasks).contains k))) =
      (((loopP (p.updateTask tid none (some u.sent) (some u.total) none) ss u.tasks).2.map
          Prod.fst).filter
        (fun k => !((u.tasks.map (fun t => nameStr t.name)).contains k))) := by
    apply List.filter_congr
    intro k hk
    rw [loopNames_contains]
    simp
  rw [pySetDiff_str, hfilter]
  simp only [Except.ok_bind]
  rw [pySorted_str]
  simp only [Except.ok_bind]
  rw [show List.insertionSort (fun a b => a ≤ b)
      ((((loopP (p.updateTask tid none (some u.sent) (some u.total) none) ss u.tasks).2.map
          Prod.fst).filter
        (fun k => !((u.tasks.map (fun t => nameStr t.name)).contains k)))) =
      missingP (loopP (p.updateTask tid none (some u.sent) (some u.total) none) ss u.tasks).2
        (u.tasks.map (fun t => nameStr t.name)) from rfl]
  rw [hideMissingLoop_bridge _ _ _
    (fun k hk => ((mem_missingP _ _ k).mp hk).1)]
  rfl

/-- C2, counterexample: after the snapshot sequence `{a}`, `{b}` exactly one
subtask (`b`) is concurrently active, yet `b`'s bar task is visible: the
code's visibility condition `len(subprocesses) > 1` counts every name ever
seen, not the concurrently active ones, so a subtask does not stay invisible
while it is the only concurrently active one. -/
theorem update_tasks_visibility_c2_counterexample :
    c2uB.tasks.length = 1 ∧
    c2Run.map (fun r => r.2) = .ok [(Json.str "a", 1), (Json.str "b", 2)] ∧
    c2Run.map (fun r => r.1.visibleOf 2) = .ok (some true) :=
  ⟨rfl, rfl, rfl⟩

/-- C6, counterexample: applying the same two-file snapshot twice from a
fresh bar does not reproduce the state of applying it once: task `a` (id 1)
is invisible after one application (the dict held only one name when `a` was
updated) but visible after the second, so `update_tasks` is not idempotent
on the bar state. -/
theorem update_tasks_idempotent_c6_counterexample :
    c6Run1.map (fun r => r.2) = .ok [(Json.str "a", 1), (Json.str "b", 2)] ∧
    c6Run1.map (fun r => r.1.visibleOf 1) = .ok (some false) ∧
    c6Run2.map (fun r => r.1.visibleOf 1) = .ok (some true) :=
  ⟨rfl, rfl, rfl⟩

/-- C2 (amended): for every snapshot applied to a well-formed state whose
task names are strings, `update_tasks` succeeds and (a) a name already in
the subprocess dict keeps its task id — it never gets a new identity; (b) if
at most one subtask name has ever been seen, every subtask is invisible;
(c) once a second name has ever been seen (`1 < ss.length`), every subtask
named in the current snapshot is visible — visibility is re-evaluated on
every snapshot but is driven by the ever-seen count `len(subprocesses)`, not
by the concurrently active count; (d) every tracked subtask absent from the
current snapshot is marked invisible. -/
theorem update_tasks_visibility_c2 (p : Pbar) (tid : ℕ) (u : Update)
    (ss : List (String × ℕ)) (hn : ∀ t ∈ u.tasks, isStrB t.name = true)
    (hwf : WFState p ss) :
    ∃ p2 ss2, update_tasks p tid u (liftSubs ss) = .ok (p2, liftSubs ss2) ∧
      (∀ n ∈ ss.map Prod.fst, lookupSub ss2 n = lookupSub ss n) ∧
      (ss2.length ≤ 1 → ∀ kv ∈ ss2, p2.visibleOf kv.2 = some false) ∧
      (1 < ss.length → ∀ t ∈ u.tasks, ∃ i,
        lookupSub ss2 (nameStr t.name) = some i ∧ p2.visibleOf i = some true) ∧
      (∀ kv ∈ ss2, kv.1 ∉ u.tasks.map (fun t => nameStr t.name) →
        p2.visibleOf kv.2 = some false) := by
  refine ⟨(update_tasksP p tid u ss).1, (update_tasksP p tid u ss).2,
    update_tasks_bridge p tid u ss hn, ?_, ?_, ?_, ?_⟩
  · intro n hnmem
    exact update_tasksP_lookup_pres p tid u ss n hnmem
  · intro hlen kv hmem
    exact update_tasksP_vis_small p tid u ss hwf hlen kv hmem
  · intro hlen t ht
    exact update_tasksP_vis_present p tid u ss hwf hlen t ht
  · intro kv hmem habs
    exact update_tasksP_vis_of_missing p tid u ss hwf kv hmem habs

/-- C2 witness: the amended theorem instantiated at the two-subtask state,
hypotheses discharged concretely. -/
theorem update_tasks_visibility_c2_witness :
    (∀ t ∈ c2uB.tasks, isStrB t.name = true) ∧ WFState c2WPbar c2WSubs ∧
    (∃ p2 ss2, update_tasks c2WPbar 0 c2uB (liftSubs c2WSubs) = .ok (p2, liftSubs ss2) ∧
      (∀ n ∈ c2WSubs.map Prod.fst, lookupSub ss2 n = lookupSub c2WSubs n) ∧
      (ss2.length ≤ 1 → ∀ kv ∈ ss2, p2.visibleOf kv.2 = some false) ∧
      (1 < c2WSubs.length → ∀ t ∈ c2uB.tasks, ∃ i,
        lookupSub ss2 (nameStr t.name) = some i ∧ p2.visibleOf i = some true) ∧
      (∀ kv ∈ ss2, kv.1 ∉ c2uB.tasks.map (fun t => nameStr t.name) →
        p2.visibleOf kv.2 = some false)) :=
  ⟨by decide, by unfold WFState; decide,
    update_tasks_visibility_c2 c2WPbar 0 c2uB c2WSubs (by decide)
      (by unfold WFState; decide)⟩

/-- C6 (amended): applying the same snapshot twice to a well-formed state
(string task names, distinct names in the snapshot) succeeds and is
last-write-wins on the tracking state: the subprocess dict, the aggregate
task's completed/total and every snapshot subtask's completed/total are
identical after one and after two applications. (Subtask *visibility* is not
idempotent — see the counterexample — because the dict can grow mid-loop
during the first application.) -/
theorem update_tasks_idempotent_c6 (p : Pbar) (tid : ℕ) (u : Update)
    (ss : List (String × ℕ)) (hn : ∀ t ∈ u.tasks, isStrB t.name = true)
    (hfull : WFFull p ss tid)
    (hnodup : (u.tasks.map (fun t => nameStr t.name)).Nodup) :
    ∃ p1 s1 p2 s2,
      update_tasks p tid u (liftSubs ss) = .ok (p1, liftSubs s1) ∧
      update_tasks p1 tid u (liftSubs s1) = .ok (p2, liftSubs s2) ∧
      s2 = s1 ∧
      p1.completedOf tid = some u.sent ∧ p1.totalOf tid = some u.total ∧
      p2.completedOf tid = some u.sent ∧ p2.totalOf tid = some u.total ∧
      (∀ t ∈ u.tasks, ∃ i, lookupSub s1 (nameStr t.name) = some i ∧
        p1.completedOf i = some t.sent ∧ p1.totalOf i = some t.total ∧
        p2.completedOf i = some t.sent ∧ p2.totalOf i = some t.total) := by
  have hwf := hfull.1
  have hfull1 := update_tasksP_wffull p tid u ss hfull
  have hwf1 := hfull1.1
  have hb1 := update_tasks_bridge p tid u ss hn
  have hb2 := update_tasks_bridge (update_tasksP p tid u ss).1 tid u
    (update_tasksP p tid u ss).2 hn
  have hsubs2 : (update_tasksP (update_tasksP p tid u ss).1 tid u
      (update_tasksP p tid u ss).2).2 = (update_tasksP p tid u ss).2 :=
    update_tasksP_subs_found _ _ _ _ (fun t ht => update_tasksP_names_mem p tid u ss t ht)
  refine ⟨(update_tasksP p tid u ss).1, (update_tasksP p tid u ss).2,
    (update_tasksP (update_tasksP p tid u ss).1 tid u (update_tasksP p tid u ss).2).1,
    (update_tasksP (update_tasksP p tid u ss).1 tid u (update_tasksP p tid u ss).2).2,
    hb1, hb2, hsubs2, ?_, ?_, ?_, ?_, ?_⟩
  · exact (update_tasksP_aggregate p tid u ss hfull).1
  · exact (update_tasksP_aggregate p tid u ss hfull).2
  · exact (update_tasksP_aggregate _ tid u _ hfull1).1
  · exact (update_tasksP_aggregate _ tid u _ hfull1).2
  · intro t ht
    rcases update_tasksP_sets_ct p tid u ss hwf hnodup t ht with ⟨i, hlk1, hc1, ht1⟩
    rcases update_tasksP_sets_ct _ tid u _ hwf1 hnodup t ht with ⟨i2, hlk2, hc2, ht2⟩
    rw [hsubs2, hlk1] at hlk2
    obtain rfl := Option.some.inj hlk2
    exact ⟨_, hlk1, hc1, ht1, hc2, ht2⟩

/-- C6 witness: the amended theorem instantiated at the fresh bar and the
two-file snapshot, hypotheses discharged concretely. -/
theorem update_tasks_idempotent_c6_witness :
    (∀ t ∈ c6uAB.tasks, isStrB t.name = true) ∧ WFFull c6Pbar0 [] 0 ∧
    (c6uAB.tasks.map (fun t => nameStr t.name)).Nodup ∧
    (∃ p1 s1 p2 s2,
      update_tasks c6Pbar0 0 c6uAB (liftSubs []) = .ok (p1, liftSubs s1) ∧
      update_tasks p1 0 c6uAB (liftSubs s1) = .ok (p2, liftSubs s2) ∧
      s2 = s1 ∧
      p1.completedOf 0 = some c6uAB.sent ∧ p1.totalOf 0 = some c6uAB.total ∧
      p2.completedOf 0 = some c6uAB.sent ∧ p2.totalOf 0 = some c6uAB.total ∧
      (∀ t ∈ c6uAB.tasks, ∃ i, lookupSub s1 (nameStr t.name) = some i ∧
        p1.completedOf i = some t.sent ∧ p1.totalOf i = some t.total ∧
        p2.completedOf i = some t.sent ∧ p2.totalOf i = some t.total)) :=
  ⟨by decide, by unfold WFFull WFState; decide, by decide,
    update_tasks_idempotent_c6 c6Pbar0 0 c6uAB [] (by decide)
      (by unfold WFFull WFState; decide) (by decide)⟩
